import Mathlib

/-!
# Verification of the atomupd-daemon update service

Shallow embedding of the core logic of `atomupd-daemon` (files
`src/atomupd-daemon/au-atomupd1-impl.c` and `src/atomupd-daemon/utils.c`)
together with theorems about the update-session state machine, the
candidate parser, BuildId classification, legacy preference migration,
HTTP-proxy handling, the progress-line parser, and the netrc / desync
credential updaters.

Machine integers are modelled as `Int`/`Nat`; fallible C functions that
report a `GError` are modelled as `Option`-returning functions.
-/

set_option maxHeartbeats 1000000

namespace Atomupd

/-! ## Small character/string helpers shared by several components

The C code works with NUL-terminated byte strings; we model strings as
`List Char` (via `String.data`) restricted to the ASCII fragment the
daemon actually manipulates.
-/

/-- Decimal digit test, mirrors `g_ascii_isdigit`. -/
def isDigitC (c : Char) : Bool := '0' ≤ c ∧ c ≤ '9'

/-- Numeric value of a digit character (`c - '0'` in C). -/
def charVal (c : Char) : Nat := c.toNat - '0'.toNat

/-- Value of a list of decimal digits, most significant first. -/
def digitsVal (cs : List Char) : Nat := cs.foldl (fun acc c => 10 * acc + charVal c) 0

/-! ## BuildId parsing and upgrade/downgrade classification

Embedding of `_is_buildid_valid` and of the classification performed by
`au_atomupd1_impl_handle_start_update` (au-atomupd1-impl.c).
-/

/-- `G_MAXINT` on the target platform (32-bit `gint`). -/
def gMaxInt : Int := 2147483647

/--
Model of `g_ascii_strtoll(s, &endptr, 10)` under the additional requirement,
imposed by the caller, that `endptr` ends up at the terminating NUL and that
at least one character was consumed: an optional single sign followed by at
least one decimal digit.  (The C routine also skips leading whitespace,
which we do not model; it only matters for degenerate inputs such as
`" 1201010"`.)  Returns the parsed value.
-/
def strtollAll (cs : List Char) : Option Int :=
  match cs with
  | '+' :: rest => if rest ≠ [] ∧ rest.all isDigitC then some (digitsVal rest) else none
  | '-' :: rest => if rest ≠ [] ∧ rest.all isDigitC then some (-(digitsVal rest : Int)) else none
  | _ => if cs ≠ [] ∧ cs.all isDigitC then some (digitsVal cs) else none

/-- `g_strsplit(s, ".", 2)`: split at the first `'.'` only. -/
def splitDotMax2 (cs : List Char) : List (List Char) :=
  if cs = [] then []
  else if ('.' : Char) ∈ cs then
    [cs.takeWhile (· ≠ '.'), (cs.dropWhile (· ≠ '.')).tail]
  else [cs]

/--
Embedding of `_is_buildid_valid` (au-atomupd1-impl.c): a BuildId is
`YYYYMMDD[.N]`.  Returns `some (date, increment)` exactly when the C
function returns `TRUE` with those out-values (a missing increment is 0).
-/
def _is_buildid_valid (buildid : String) : Option (Int × Int) :=
  if buildid = "" then none else
  match splitDotMax2 buildid.data with
  | [] => none
  | dateStr :: restParts =>
    match strtollAll dateStr with
    | none => none
    | some date =>
      if date < 0 ∨ date > gMaxInt then none
      else if dateStr.length ≠ 8 then none
      else
        let month := 10 * charVal (dateStr.getD 4 ' ') + charVal (dateStr.getD 5 ' ')
        let day := 10 * charVal (dateStr.getD 6 ' ') + charVal (dateStr.getD 7 ' ')
        if month > 12 ∨ day > 31 then none
        else
          match restParts with
          | [] => some (date, 0)
          | incStr :: _ =>
            match strtollAll incStr with
            | none => none
            | some inc =>
              if inc < 0 ∨ inc > gMaxInt then none else some (date, inc)

/-- Polkit action id presented for an upgrade. -/
def startUpgradeAction : String := "com.steampowered.atomupd1.start-upgrade"

/-- Polkit action id presented for a downgrade. -/
def startDowngradeAction : String := "com.steampowered.atomupd1.start-downgrade"

/--
Embedding of the action-id selection in `au_atomupd1_impl_handle_start_update`:
for a valid requested BuildId the downgrade action is chosen iff the
requested `(date, increment)` pair is below the current image's pair;
an invalid BuildId yields an invalid-args error (`none`).
-/
def startUpdateActionId (currentDate currentInc : Int) (argId : String) : Option String :=
  match _is_buildid_valid argId with
  | none => none
  | some (d, i) =>
    some (if d < currentDate ∨ (d = currentDate ∧ i < currentInc)
          then startDowngradeAction else startUpgradeAction)

/-- Strict lexicographic order on `(date, increment)` pairs, as used by the spec. -/
def buildidLexLt (a b : Int × Int) : Prop :=
  a.1 < b.1 ∨ (a.1 = b.1 ∧ a.2 < b.2)

instance (a b : Int × Int) : Decidable (buildidLexLt a b) := by
  unfold buildidLexLt; infer_instance

/-- C4: for every syntactically valid requested BuildId, `StartUpdate` presents
the downgrade action identifier iff the requested `(date, increment)` pair is
lexicographically below the current image's pair, and the upgrade action
identifier otherwise. -/
theorem start_update_action_classification
    (currentDate currentInc d i : Int) (argId : String)
    (hvalid : _is_buildid_valid argId = some (d, i)) :
    startUpdateActionId currentDate currentInc argId =
      some (if buildidLexLt (d, i) (currentDate, currentInc)
            then startDowngradeAction else startUpgradeAction) := by
  unfold startUpdateActionId
  rw [hvalid]
  by_cases h : buildidLexLt (d, i) (currentDate, currentInc)
  · simp only [if_pos h]
    have h' : d < currentDate ∨ (d = currentDate ∧ i < currentInc) := h
    simp [h']
  · simp only [if_neg h]
    have h' : ¬(d < currentDate ∨ (d = currentDate ∧ i < currentInc)) := h
    simp [h']

/-- Witness for C4 at a concrete input: requesting `20211225.1` while the
current image is `20220101.1` is classified as a downgrade. -/
theorem start_update_action_classification_witness :
    _is_buildid_valid "20211225.1" = some (20211225, 1) ∧
    startUpdateActionId 20220101 1 "20211225.1" = some startDowngradeAction := by
  constructor
  · decide
  · have h := start_update_action_classification 20220101 1 20211225 1 "20211225.1" (by decide)
    rw [h]
    norm_num [buildidLexLt]

/-! ## Update-session state machine preconditions

Embedding of the state checks at the top of `au_start_update_authorized_cb`,
`au_pause_update_authorized_cb` and `au_resume_update_authorized_cb`
(au-atomupd1-impl.c).  The D-Bus object state relevant to these handlers is
collected in `SessionState`; each handler is a function from the old state
(plus the environment facts it consults) to the new state together with an
indication of whether the request was rejected.
-/

/-- `AuUpdateStatus` (au-atomupd1-impl.h). -/
inductive AuUpdateStatus
  | idle
  | inProgress
  | paused
  | successful
  | failed
  | cancelled
deriving DecidableEq, Repr

/-- Fields describing one update entry in `UpdatesAvailable` /
`UpdatesAvailableLater` (the `a{sv}` payload built by `_au_parse_candidates`). -/
structure UpdateEntry where
  version : String
  variant : String
  estimated_size : Int
  requiresId : Option String
deriving DecidableEq, Repr

/-- The session-relevant state of the `AuAtomupd1` object. -/
structure SessionState where
  status : AuUpdateStatus
  updateBuildId : Option String
  updateVersion : Option String
  progressPercentage : Int
  updatesAvailable : List (String × UpdateEntry)
deriving DecidableEq, Repr

/-- Outcome of a method handler: either a D-Bus error reply or success. -/
inductive MethodOutcome
  | rejected (message : String)
  | completed
deriving DecidableEq, Repr

/--
Embedding of `au_start_update_authorized_cb` (au-atomupd1-impl.c).
`jsonExists` models `g_file_query_exists(self->updates_json_file)`;
`copyOk` models the snapshot of the cached JSON to a fresh temporary file;
`spawnOk` models `g_spawn_async_with_pipes` for the install helper.
-/
def au_start_update_authorized_cb (st : SessionState) (jsonExists : Bool)
    (argId : String) (copyOk spawnOk : Bool) : SessionState × MethodOutcome :=
  if st.status = .inProgress ∨ st.status = .paused then
    (st, .rejected "Failed to start a new update because one is already in progress")
  else if ¬jsonExists then
    (st, .rejected "It is not possible to start an update before calling CheckForUpdates")
  else
    let st := { st with updateBuildId := some argId }
    let st :=
      match st.updatesAvailable.lookup argId with
      | some entry => { st with updateVersion := some entry.version }
      | none => { st with updateVersion := none }
    if ¬copyOk then
      (st, .rejected "Failed to create a copy of the JSON update file")
    else if ¬spawnOk then
      (st, .rejected "Failed to launch the steamos-atomupd-client helper")
    else
      ({ st with progressPercentage := 0, status := .inProgress }, .completed)

/--
Embedding of `au_pause_update_authorized_cb` (au-atomupd1-impl.c).
`signalOk` models `_au_send_signal_to_install_procs(self, SIGSTOP, ...)`.
-/
def au_pause_update_authorized_cb (st : SessionState) (signalOk : Bool) :
    SessionState × MethodOutcome :=
  if st.status ≠ .inProgress then
    (st, .rejected "There isn't an update in progress that can be paused")
  else if ¬signalOk then
    (st, .rejected "An error occurred while attempting to pause the installation process")
  else
    ({ st with status := .paused }, .completed)

/--
Embedding of `au_resume_update_authorized_cb` (au-atomupd1-impl.c).
`signalOk` models `_au_send_signal_to_install_procs(self, SIGCONT, ...)`.
-/
def au_resume_update_authorized_cb (st : SessionState) (signalOk : Bool) :
    SessionState × MethodOutcome :=
  if st.status ≠ .paused then
    (st, .rejected "There isn't a paused update that can be resumed")
  else if ¬signalOk then
    (st, .rejected "An error occurred while attempting to resume the installation process")
  else
    ({ st with status := .inProgress }, .completed)

/-- C1: `StartUpdate` is rejected, with the state left unchanged, whenever the
status is `InProgress` or `Paused`, or whenever the cached candidates JSON file
does not exist; `PauseUpdate` is rejected unless the status is `InProgress`;
`ResumeUpdate` is rejected unless the status is `Paused`; in every such
rejected case no state transition occurs. -/
theorem session_state_preconditions (st : SessionState) (jsonExists : Bool)
    (argId : String) (copyOk spawnOk signalOk : Bool) :
    (st.status = .inProgress ∨ st.status = .paused →
      ∃ m, au_start_update_authorized_cb st jsonExists argId copyOk spawnOk =
        (st, .rejected m)) ∧
    (¬jsonExists →
      ∃ m, au_start_update_authorized_cb st jsonExists argId copyOk spawnOk =
        (st, .rejected m)) ∧
    (st.status ≠ .inProgress →
      ∃ m, au_pause_update_authorized_cb st signalOk = (st, .rejected m)) ∧
    (st.status ≠ .paused →
      ∃ m, au_resume_update_authorized_cb st signalOk = (st, .rejected m)) := by
  refine ⟨?_, ?_, ?_, ?_⟩
  · intro h
    exact ⟨"Failed to start a new update because one is already in progress",
      by simp [au_start_update_authorized_cb, h]⟩
  · intro h
    by_cases hb : st.status = .inProgress ∨ st.status = .paused
    · exact ⟨"Failed to start a new update because one is already in progress",
        by simp [au_start_update_authorized_cb, hb]⟩
    · exact ⟨"It is not possible to start an update before calling CheckForUpdates",
        by simp [au_start_update_authorized_cb, hb, h]⟩
  · intro h
    exact ⟨"There isn't an update in progress that can be paused",
      by simp [au_pause_update_authorized_cb, h]⟩
  · intro h
    exact ⟨"There isn't a paused update that can be resumed",
      by simp [au_resume_update_authorized_cb, h]⟩

/-- A concrete paused session used as the C1 witness state. -/
def pausedSession : SessionState :=
  { status := .paused, updateBuildId := none, updateVersion := none,
    progressPercentage := 50, updatesAvailable := [] }

/-- Witness for C1 at a concrete state: with a paused session, `StartUpdate`
and `PauseUpdate` are both rejected without a state change. -/
theorem session_state_preconditions_witness :
    (∃ m, au_start_update_authorized_cb pausedSession true "20220227.3" true true =
      (pausedSession, .rejected m)) ∧
    (∃ m, au_pause_update_authorized_cb pausedSession true =
      (pausedSession, .rejected m)) :=
  ⟨(session_state_preconditions pausedSession true "20220227.3" true true true).1
      (Or.inr rfl),
   (session_state_preconditions pausedSession true "20220227.3" true true true).2.2.1
      (by decide)⟩

/-! ## JSON model

A small JSON value type used to embed the json-glib based code
(`_au_parse_image`, `_au_parse_candidates` in au-atomupd1-impl.c and
`_au_ensure_url_in_desync_conf` in utils.c).  Objects are ordered member
lists, matching json-glib's insertion-ordered objects.
-/

/-- JSON values. -/
inductive Json where
  | jnull
  | jbool (b : Bool)
  | jint (n : Int)
  | jstr (s : String)
  | jarr (items : List Json)
  | jobj (members : List (String × Json))
deriving Repr

/-- `json_object_get_member`: first member with the given name. -/
def jLookup (ms : List (String × Json)) (k : String) : Option Json :=
  match ms with
  | [] => none
  | (k', v) :: rest => if k' = k then some v else jLookup rest k

/-- `json_object_has_member`. -/
def jHasMember (ms : List (String × Json)) (k : String) : Bool :=
  (jLookup ms k).isSome

/-- `json_object_set_*_member`: replace the value in place if the member
exists, otherwise append it. -/
def jSetMember (ms : List (String × Json)) (k : String) (v : Json) :
    List (String × Json) :=
  match ms with
  | [] => [(k, v)]
  | (k', v') :: rest => if k' = k then (k', v) :: rest else (k', v') :: jSetMember rest k v

/-- `json_object_get_string_member_with_default(obj, k, NULL)`: `some s` when
member `k` holds the string `s`, otherwise the `NULL` default. -/
def jGetStringD (ms : List (String × Json)) (k : String) : Option String :=
  match jLookup ms k with
  | some (.jstr s) => some s
  | _ => none

/-- `json_object_get_int_member_with_default`. -/
def jGetIntD (ms : List (String × Json)) (k : String) (dflt : Int) : Int :=
  match jLookup ms k with
  | some (.jint n) => n
  | _ => dflt

/-! ## Candidate parsing

Embedding of `_au_parse_image` and `_au_parse_candidates`
(au-atomupd1-impl.c).
-/

/-- The `image.{buildid, version, variant, estimated_size}` data of one
update candidate. -/
structure ImageInfo where
  buildid : String
  version : String
  variant : String
  estimated_size : Int
deriving DecidableEq, Repr

/-- Embedding of `_au_parse_image`: extract the image description from one
`candidates` array element.  The `estimated_size` member defaults to 0; a
missing `buildid`, `version` or `variant` is an error. -/
def _au_parse_image (candidate : Json) : Option ImageInfo :=
  match candidate with
  | .jobj ms =>
    match jLookup ms "image" with
    | some (.jobj img) =>
      match jGetStringD img "buildid", jGetStringD img "version",
            jGetStringD img "variant" with
      | some id, some version, some variant =>
        some ⟨id, version, variant, jGetIntD img "estimated_size" 0⟩
      | _, _, _ => none
    | _ => none
  | _ => none

/-- The `(available, available_later, replacement_eol_variant)` out-values of
`_au_parse_candidates`. -/
structure CandidatesResult where
  available : List (String × UpdateEntry)
  availableLater : List (String × UpdateEntry)
  replacementEolVariant : Option String
deriving DecidableEq, Repr

/-- The loop of `_au_parse_candidates` for the array elements after the
first: each entry is annotated with a `requires` field naming the previous
entry's BuildId. -/
def parseLaterChain (reqId : String) : List Json → Option (List (String × UpdateEntry))
  | [] => some []
  | c :: cs =>
    match _au_parse_image c with
    | none => none
    | some img =>
      match parseLaterChain img.buildid cs with
      | none => none
      | some rest =>
        some ((img.buildid,
               ⟨img.version, img.variant, img.estimated_size, some reqId⟩) :: rest)

/--
Embedding of `_au_parse_candidates` (au-atomupd1-impl.c).
`updatedBuildId` is the BuildId already applied and pending a reboot, when
the current status is `Successful`.  Mirrors the C control flow: a missing
`minor` member is an empty success; a `minor` without `candidates` is an
error; if the first candidate equals `updatedBuildId` the loop is abandoned
via `goto success` with both builders still empty.  (When json-glib getters
are called on non-matching node types they emit criticals and fall back to
`NULL`/0; those fallbacks are mirrored in each `match` below.)
-/
def _au_parse_candidates (root : Json) (updatedBuildId : Option String) :
    Option CandidatesResult :=
  let rootMs := match root with | .jobj ms => ms | _ => []
  if ¬ jHasMember rootMs "minor" then some ⟨[], [], none⟩
  else
    match jLookup rootMs "minor" with
    | some (.jobj subMs) =>
      let repl := jGetStringD subMs "replacement_eol_variant"
      if ¬ jHasMember subMs "candidates" then none
      else
        let items := match jLookup subMs "candidates" with
          | some (.jarr xs) => xs
          | _ => []
        match items with
        | [] => some ⟨[], [], repl⟩
        | c0 :: rest =>
          match _au_parse_image c0 with
          | none => none
          | some img0 =>
            if updatedBuildId = some img0.buildid then some ⟨[], [], repl⟩
            else
              match parseLaterChain img0.buildid rest with
              | none => none
              | some later =>
                some ⟨[(img0.buildid,
                        ⟨img0.version, img0.variant, img0.estimated_size, none⟩)],
                      later, repl⟩
    | _ => none

/-- A canonical helper-JSON element for one candidate image. -/
def mkImageJson (img : ImageInfo) : Json :=
  .jobj [("image", .jobj [("buildid", .jstr img.buildid),
                          ("version", .jstr img.version),
                          ("variant", .jstr img.variant),
                          ("estimated_size", .jint img.estimated_size)])]

/-- A canonical helper-JSON output advertising the given candidate chain. -/
def mkCandidatesJson (imgs : List ImageInfo) : Json :=
  .jobj [("minor", .jobj [("candidates", .jarr (imgs.map mkImageJson))])]

theorem parse_image_mkImageJson (img : ImageInfo) :
    _au_parse_image (mkImageJson img) = some img := by
  simp [mkImageJson, _au_parse_image, jLookup, jGetStringD, jGetIntD]

/-- The `UpdatesAvailableLater` listing expected for a chain whose first
element requires `reqId`: each entry points at its immediate predecessor. -/
def chainedLater (reqId : String) : List ImageInfo → List (String × UpdateEntry)
  | [] => []
  | img :: rest =>
    (img.buildid, ⟨img.version, img.variant, img.estimated_size, some reqId⟩) ::
      chainedLater img.buildid rest

theorem parseLaterChain_eq_chainedLater (reqId : String) (imgs : List ImageInfo) :
    parseLaterChain reqId (imgs.map mkImageJson) = some (chainedLater reqId imgs) := by
  induction imgs generalizing reqId with
  | nil => rfl
  | cons img rest ih =>
    simp only [List.map_cons, parseLaterChain, parse_image_mkImageJson, ih, chainedLater]

/-- C2: for a helper JSON with a non-empty candidate chain whose first entry
does not equal the reboot-pending BuildId, parsing yields `UpdatesAvailable`
containing exactly the first candidate (version, variant, `estimated_size`,
no `requires` field) and `UpdatesAvailableLater` containing every subsequent
candidate in order, each with `requires` equal to the immediately preceding
candidate's BuildId. -/
theorem parse_candidates_chain (img0 : ImageInfo) (rest : List ImageInfo)
    (updatedBuildId : Option String)
    (hne : updatedBuildId ≠ some img0.buildid) :
    _au_parse_candidates (mkCandidatesJson (img0 :: rest)) updatedBuildId =
      some ⟨[(img0.buildid,
              ⟨img0.version, img0.variant, img0.estimated_size, none⟩)],
            chainedLater img0.buildid rest, none⟩ := by
  simp [_au_parse_candidates, mkCandidatesJson, jHasMember, jLookup,
    jGetStringD, parse_image_mkImageJson, parseLaterChain_eq_chainedLater, hne]

/-- Witness for C2: the spec's chained-candidates scenario with three
candidates `20211225.1`, `20220101.1`, `20220227.3` and no pending reboot. -/
theorem parse_candidates_chain_witness :
    _au_parse_candidates
        (mkCandidatesJson
          [⟨"20211225.1", "snapshot", "steamdeck", 1000⟩,
           ⟨"20220101.1", "snapshot", "steamdeck", 2000⟩,
           ⟨"20220227.3", "snapshot", "steamdeck", 3000⟩]) none =
      some ⟨[("20211225.1", ⟨"snapshot", "steamdeck", 1000, none⟩)],
            [("20220101.1", ⟨"snapshot", "steamdeck", 2000, some "20211225.1"⟩),
             ("20220227.3", ⟨"snapshot", "steamdeck", 3000, some "20220101.1"⟩)],
            none⟩ := by
  rw [parse_candidates_chain ⟨"20211225.1", "snapshot", "steamdeck", 1000⟩
    [⟨"20220101.1", "snapshot", "steamdeck", 2000⟩,
     ⟨"20220227.3", "snapshot", "steamdeck", 3000⟩] none (by simp)]
  rfl

/-- C3 counterexample: with a two-element chain whose first entry equals the
reboot-pending BuildId, the parser abandons the whole loop (`goto success`),
so `UpdatesAvailableLater` is empty — the second candidate does *not* remain
in it, contrary to the claim. -/
theorem parse_candidates_pending_reboot_counterexample :
    _au_parse_candidates
        (mkCandidatesJson
          [⟨"20220227.3", "snapshot", "steamdeck", 70910463⟩,
           ⟨"20220301.1", "snapshot", "steamdeck", 4000⟩])
        (some "20220227.3") =
      some ⟨[], [], none⟩ ∧
    ((_au_parse_candidates
        (mkCandidatesJson
          [⟨"20220227.3", "snapshot", "steamdeck", 70910463⟩,
           ⟨"20220301.1", "snapshot", "steamdeck", 4000⟩])
        (some "20220227.3")).map
      (fun r => ("20220301.1", (⟨"snapshot", "steamdeck", 4000,
        some "20220227.3"⟩ : UpdateEntry)) ∈ r.availableLater)) = some False := by
  constructor
  · rfl
  · simp [_au_parse_candidates, mkCandidatesJson, jHasMember, jLookup,
      jGetStringD, parse_image_mkImageJson]

/-- C3 (amended): when the first candidate equals the reboot-pending BuildId
the parser discards the entire chain — both `UpdatesAvailable` and
`UpdatesAvailableLater` come back empty, regardless of the later entries. -/
theorem parse_candidates_pending_reboot (img0 : ImageInfo) (rest : List ImageInfo) :
    _au_parse_candidates (mkCandidatesJson (img0 :: rest)) (some img0.buildid) =
      some ⟨[], [], none⟩ := by
  simp [_au_parse_candidates, mkCandidatesJson, jHasMember, jLookup,
    jGetStringD, parse_image_mkImageJson]

/-! ## Preferences, variant/branch switching, EOL handover, 4xx recovery

Embedding of `_au_update_user_preferences`, `_au_switch_to_variant`,
`_au_switch_to_branch` and the relevant parts of `on_query_completed`
(au-atomupd1-impl.c).
-/

/-- The content of `preferences.conf` as written by
`_au_update_user_preferences`: the `[Choices]` section and the optional
`[Proxy]` section. -/
structure PrefsFile where
  variant : String
  branch : String
  proxy : Option (String × Int)
deriving DecidableEq, Repr

/--
Embedding of `_au_update_user_preferences`: writes `Choices.Variant` and
`Choices.Branch`, removes any previous `[Proxy]` group, and re-adds it only
when an HTTP proxy with a non-empty address is supplied.  `writeOk` models
`g_key_file_save_to_file` (and the initial load) succeeding; `none` is the
error return.
-/
def _au_update_user_preferences (variant branch : String)
    (http_proxy : Option (String × Int)) (writeOk : Bool) : Option PrefsFile :=
  if ¬writeOk then none
  else some { variant := variant, branch := branch,
              proxy := match http_proxy with
                       | some (addr, port) => if addr ≠ "" then some (addr, port) else none
                       | none => none }

/-- The state consulted and mutated by the switching code paths. -/
structure StreamState where
  variant : String
  branch : String
  httpProxy : Option (String × Int)
  prefs : Option PrefsFile
  updatesAvailable : List (String × UpdateEntry)
  updatesAvailableLater : List (String × UpdateEntry)
deriving DecidableEq, Repr

/--
Embedding of `_au_switch_to_variant`: a no-op when the variant is already
tracked; otherwise persists the preferences, clears the available-update
listing only when `clearAvailableUpdates` is set, and updates the `Variant`
property.
-/
def _au_switch_to_variant (st : StreamState) (variant : String)
    (clearAvailableUpdates : Bool) (writeOk : Bool) : Option StreamState :=
  if variant = st.variant then some st
  else
    match _au_update_user_preferences variant st.branch st.httpProxy writeOk with
    | none => none
    | some prefs =>
      some { st with
             prefs := some prefs,
             updatesAvailable :=
               if clearAvailableUpdates then [] else st.updatesAvailable,
             updatesAvailableLater :=
               if clearAvailableUpdates then [] else st.updatesAvailableLater,
             variant := variant }

/-- Embedding of `_au_switch_to_branch`: a no-op when the branch is already
tracked; otherwise persists the preferences, always clears the
available-update listing, and updates the `Branch` property. -/
def _au_switch_to_branch (st : StreamState) (branch : String) (writeOk : Bool) :
    Option StreamState :=
  if branch = st.branch then some st
  else
    match _au_update_user_preferences st.variant branch st.httpProxy writeOk with
    | none => none
    | some prefs =>
      some { st with
             prefs := some prefs,
             updatesAvailable := [],
             updatesAvailableLater := [],
             branch := branch }

/-- The `SwitchToVariant` D-Bus handler (`au_switch_variant_authorized_cb`)
always passes `clear_available_updates = TRUE`. -/
def au_switch_variant_authorized_cb (st : StreamState) (variant : String)
    (writeOk : Bool) : Option StreamState :=
  _au_switch_to_variant st variant true writeOk

/-- The `SwitchToBranch` D-Bus handler (`au_switch_branch_authorized_cb`). -/
def au_switch_branch_authorized_cb (st : StreamState) (branch : String)
    (writeOk : Bool) : Option StreamState :=
  _au_switch_to_branch st branch writeOk

/--
The tail of `on_query_completed`'s success path: after `_au_parse_candidates`
succeeded and the raw JSON has been stored, an optional automatic EOL
variant handover runs with `clear_available_updates = FALSE`, and only then
are the two candidate properties set to the freshly parsed listing.
-/
def onQueryParsedSuccess (st : StreamState) (res : CandidatesResult)
    (writeOk : Bool) : Option StreamState :=
  match res.replacementEolVariant with
  | some v =>
    match _au_switch_to_variant st v false writeOk with
    | none => none
    | some st' =>
      some { st' with updatesAvailable := res.available,
                      updatesAvailableLater := res.availableLater }
  | none =>
    some { st with updatesAvailable := res.available,
                   updatesAvailableLater := res.availableLater }

/-- A concrete tracked state used by the C5/C6 witnesses. -/
def steamdeckState : StreamState :=
  { variant := "steamdeck", branch := "stable", httpProxy := none, prefs := none,
    updatesAvailable := [("20220101.1", ⟨"snapshot", "steamdeck", 1000, none⟩)],
    updatesAvailableLater := [("20220227.3", ⟨"snapshot", "steamdeck", 2000,
      some "20220101.1"⟩)] }

/-- C5 counterexample: the automatic EOL handover during `CheckForUpdates`
changes the tracked `Variant` but does *not* clear the candidate listing —
`_au_switch_to_variant` is called with `clear_available_updates = FALSE` and
the freshly computed (non-empty) listing is installed right after. -/
theorem switch_clears_candidates_counterexample :
    onQueryParsedSuccess steamdeckState
        ⟨[("20220227.3", ⟨"snapshot", "steamdeck-replacement", 3000, none⟩)], [],
         some "steamdeck-replacement"⟩ true =
      some { variant := "steamdeck-replacement", branch := "stable",
             httpProxy := none,
             prefs := some ⟨"steamdeck-replacement", "stable", none⟩,
             updatesAvailable :=
               [("20220227.3", ⟨"snapshot", "steamdeck-replacement", 3000, none⟩)],
             updatesAvailableLater := [] } ∧
    ((onQueryParsedSuccess steamdeckState
        ⟨[("20220227.3", ⟨"snapshot", "steamdeck-replacement", 3000, none⟩)], [],
         some "steamdeck-replacement"⟩ true).map
      (fun st => st.variant ≠ steamdeckState.variant ∧ st.updatesAvailable = []))
      = some False := by
  constructor
  · rfl
  · simp [onQueryParsedSuccess, _au_switch_to_variant, _au_update_user_preferences,
      steamdeckState]

/-- C5 (amended): `SwitchToVariant` and `SwitchToBranch` clear both
`UpdatesAvailable` and `UpdatesAvailableLater` atomically with any actual
variant or branch change, but the automatic EOL handover performed during
`CheckForUpdates` does not clear them: it retains the candidate listing just
computed. -/
theorem switch_clears_candidates (st : StreamState) (v b : String)
    (res : CandidatesResult) (writeOk : Bool) :
    (∀ st', v ≠ st.variant →
      au_switch_variant_authorized_cb st v writeOk = some st' →
      st'.variant = v ∧ st'.updatesAvailable = [] ∧
        st'.updatesAvailableLater = []) ∧
    (∀ st', b ≠ st.branch →
      au_switch_branch_authorized_cb st b writeOk = some st' →
      st'.branch = b ∧ st'.updatesAvailable = [] ∧
        st'.updatesAvailableLater = []) ∧
    (∀ st', res.replacementEolVariant = some v → v ≠ st.variant →
      onQueryParsedSuccess st res writeOk = some st' →
      st'.variant = v ∧ st'.updatesAvailable = res.available ∧
        st'.updatesAvailableLater = res.availableLater) := by
  refine ⟨?_, ?_, ?_⟩
  · intro st' hne h
    simp only [au_switch_variant_authorized_cb, _au_switch_to_variant,
      _au_update_user_preferences, if_neg hne] at h
    by_cases hw : writeOk <;> simp [hw] at h
    subst h
    simp
  · intro st' hne h
    simp only [au_switch_branch_authorized_cb, _au_switch_to_branch,
      _au_update_user_preferences, if_neg hne] at h
    by_cases hw : writeOk <;> simp [hw] at h
    subst h
    simp
  · intro st' hrepl hne h
    simp only [onQueryParsedSuccess, hrepl, _au_switch_to_variant,
      _au_update_user_preferences, if_neg hne] at h
    by_cases hw : writeOk <;> simp [hw] at h
    subst h
    simp

/-- Witness for C5 (amended) at concrete inputs: a real variant switch clears
the listing, and the EOL handover retains the computed listing. -/
theorem switch_clears_candidates_witness :
    (∃ st', au_switch_variant_authorized_cb steamdeckState "steamdeck-beta" true =
        some st' ∧ st'.updatesAvailable = [] ∧ st'.updatesAvailableLater = []) ∧
    (∃ st', onQueryParsedSuccess steamdeckState ⟨[], [], some "steamdeck-rc"⟩ true =
        some st' ∧ st'.variant = "steamdeck-rc") := by
  constructor
  · refine ⟨{ steamdeckState with
        variant := "steamdeck-beta",
        prefs := some ⟨"steamdeck-beta", "stable", none⟩,
        updatesAvailable := [], updatesAvailableLater := [] }, by decide, ?_⟩
    have h := (switch_clears_candidates steamdeckState "steamdeck-beta" "stable"
        ⟨[], [], none⟩ true).1
        { steamdeckState with
          variant := "steamdeck-beta",
          prefs := some ⟨"steamdeck-beta", "stable", none⟩,
          updatesAvailable := [], updatesAvailableLater := [] }
        (by decide) (by decide)
    exact ⟨h.2.1, h.2.2⟩
  · refine ⟨{ steamdeckState with
        variant := "steamdeck-rc",
        prefs := some ⟨"steamdeck-rc", "stable", none⟩,
        updatesAvailable := [], updatesAvailableLater := [] }, by decide, ?_⟩
    exact ((switch_clears_candidates steamdeckState "steamdeck-rc" "stable"
        ⟨[], [], some "steamdeck-rc"⟩ true).2.2
        { steamdeckState with
          variant := "steamdeck-rc",
          prefs := some ⟨"steamdeck-rc", "stable", none⟩,
          updatesAvailable := [], updatesAvailableLater := [] }
        (by decide) (by decide) (by decide)).1

/-- Failure modes reported by `on_query_completed` when the query helper does
not exit successfully. -/
inductive QueryFailure
  | manifestParseFailed
  | exhausted
  | switchVariantFailed
  | switchBranchFailed
  | reverted
  | helperError
deriving DecidableEq, Repr

/--
Embedding of the HTTP-4xx branch of `on_query_completed`: the helper exited
with status 2, the manifest's default variant (`none` when the manifest
cannot be parsed) and default branch are re-read, and either the request
fails with an exhaustion message (already on the defaults, nothing changes)
or the tracked variant and branch are reverted to the defaults and the
request fails telling the caller what happened.
-/
def on_query_completed_4xx (st : StreamState) (defaultVariant : Option String)
    (defaultBranch : String) (writeOk : Bool) : StreamState × QueryFailure :=
  match defaultVariant with
  | none => (st, .manifestParseFailed)
  | some dv =>
    if st.variant = dv ∧ st.branch = defaultBranch then (st, .exhausted)
    else
      match _au_switch_to_variant st dv true writeOk with
      | none => (st, .switchVariantFailed)
      | some st1 =>
        match _au_switch_to_branch st1 defaultBranch writeOk with
        | none => (st1, .switchBranchFailed)
        | some st2 => (st2, .reverted)

/-- The exit-status dispatch at the top of `on_query_completed`: exit 0
continues to the parsing path (`none` here), exit 2 enters the 4xx recovery,
any other failure is reported as a helper error with no state change. -/
def on_query_completed_exit (st : StreamState) (exitCode : Nat)
    (defaultVariant : Option String) (defaultBranch : String) (writeOk : Bool) :
    Option (StreamState × QueryFailure) :=
  if exitCode = 0 then none
  else if exitCode = 2 then some (on_query_completed_4xx st defaultVariant defaultBranch writeOk)
  else some (st, .helperError)

/-- C6: when the query helper exits with the distinguished 4xx status (exit
code 2), `CheckForUpdates` fails: if the tracked `(Variant, Branch)` already
equals the manifest defaults the failure indicates exhaustion and nothing
changes; otherwise the tracked variant and branch are switched to the
manifest defaults, persisted to the preferences file, and the request fails
reporting the reversion. -/
theorem query_4xx_recovery (st : StreamState) (dv db : String) :
    (st.variant = dv ∧ st.branch = db →
      on_query_completed_exit st 2 (some dv) db true = some (st, .exhausted)) ∧
    (¬(st.variant = dv ∧ st.branch = db) →
      on_query_completed_exit st 2 (some dv) db true =
        some ({ variant := dv, branch := db, httpProxy := st.httpProxy,
                prefs := some ⟨dv, db, match st.httpProxy with
                  | some (addr, port) => if addr ≠ "" then some (addr, port) else none
                  | none => none⟩,
                updatesAvailable := [], updatesAvailableLater := [] },
              .reverted)) := by
  constructor
  · intro h
    simp [on_query_completed_exit, on_query_completed_4xx, h]
  · intro h
    simp only [on_query_completed_exit, on_query_completed_4xx, if_neg h]
    by_cases hv : dv = st.variant
    · subst hv
      have hb : ¬ db = st.branch := fun hb => h ⟨rfl, hb.symm⟩
      simp [_au_switch_to_variant, _au_switch_to_branch,
        _au_update_user_preferences, hb]
    · by_cases hb : db = st.branch
      · subst hb
        simp [_au_switch_to_variant, _au_switch_to_branch,
          _au_update_user_preferences, hv]
      · simp [_au_switch_to_variant, _au_switch_to_branch,
          _au_update_user_preferences, hv, hb]

/-- Witness for C6: a host tracking `(steamdeck-beta, beta)` whose manifest
defaults are `(steamdeck, stable)` is reverted to the defaults; a host
already on the defaults fails with exhaustion and keeps its state. -/
theorem query_4xx_recovery_witness :
    on_query_completed_exit
        { steamdeckState with variant := "steamdeck-beta", branch := "beta" } 2
        (some "steamdeck") "stable" true =
      some ({ variant := "steamdeck", branch := "stable", httpProxy := none,
              prefs := some ⟨"steamdeck", "stable", none⟩,
              updatesAvailable := [], updatesAvailableLater := [] },
            .reverted) ∧
    on_query_completed_exit steamdeckState 2 (some "steamdeck") "stable" true =
      some (steamdeckState, .exhausted) :=
  ⟨(query_4xx_recovery
      { steamdeckState with variant := "steamdeck-beta", branch := "beta" }
      "steamdeck" "stable").2 (by decide),
   (query_4xx_recovery steamdeckState "steamdeck" "stable").1 (by decide)⟩

/-! ## Legacy preference migration

Embedding of `variant_conversions`, `_au_get_expanded_variant`,
`_au_convert_from_legacy_variant` and `_au_load_legacy_preferences`
(au-atomupd1-impl.c).
-/

/-- The fixed contracted-to-expanded table, stored as
`(expanded, contracted)` pairs exactly as in the C array. -/
def variant_conversions : List (String × String) :=
  [("steamdeck", "rel"), ("steamdeck-rc", "rc"), ("steamdeck-beta", "beta"),
   ("steamdeck-bc", "bc"), ("steamdeck-main", "main"),
   ("steamdeck-staging", "staging")]

/-- Embedding of `_au_get_expanded_variant`: expand a contracted legacy
variant through the table, otherwise return the input unchanged. -/
def _au_get_expanded_variant (variant : String) : String :=
  match variant_conversions.find? (fun p => p.2 = variant) with
  | some p => p.1
  | none => variant

/-- `g_str_has_prefix`, expressed on the character lists. -/
def strHasStart (s pre : String) : Bool := pre.data.isPrefixOf s.data

/-- `s + strlen(pre)` for a string known to start with the 10-byte literal
`steamdeck-` (ASCII, so bytes and characters coincide). -/
def strDropChars (s : String) (n : Nat) : String := String.mk (s.data.drop n)

/-- Embedding of `_au_convert_from_legacy_variant`: the expanded token
`steamdeck` maps to branch `stable`; an expanded token starting with
`steamdeck-` maps to the branch after that literal; anything else fails. -/
def _au_convert_from_legacy_variant (legacyVariant : String) :
    Option (String × String) :=
  let expanded := _au_get_expanded_variant legacyVariant
  if expanded = "steamdeck" then some ("steamdeck", "stable")
  else if strHasStart expanded "steamdeck-" then
    some ("steamdeck", strDropChars expanded 10)
  else none

/-- Observable outcome of `_au_load_legacy_preferences`; each constructor
records what happened to the legacy file and to the preferences file. -/
inductive LegacyOutcome
  /-- The legacy file is not present; nothing is touched. -/
  | skippedAbsent
  /-- The legacy file has multiple lines: it is deleted, preferences untouched. -/
  | malformedDeleted
  /-- The token cannot be converted: the legacy file is deleted, preferences untouched. -/
  | rejectedDeleted
  /-- Writing the new preferences failed: the legacy file is kept. -/
  | migrateWriteFailed
  /-- The preferences were written with this pair and the legacy file deleted. -/
  | migrated (variant branch : String)
deriving DecidableEq, Repr

/--
Embedding of `_au_load_legacy_preferences` (au-atomupd1-impl.c):
`branchFile` is the content of the legacy `steamos-branch` file, or `none`
when it does not exist.  One trailing newline is stripped; any further
newline marks the file as malformed.  `writeOk` models
`_au_update_user_preferences` succeeding.
-/
def _au_load_legacy_preferences (branchFile : Option String) (writeOk : Bool) :
    LegacyOutcome :=
  match branchFile with
  | none => .skippedAbsent
  | some contents =>
    let cs := contents.data
    let stripped := if cs.getLast? = some '\n' then cs.dropLast else cs
    if ('\n' : Char) ∈ stripped then .malformedDeleted
    else
      match _au_convert_from_legacy_variant (String.mk stripped) with
      | none => .rejectedDeleted
      | some (v, b) => if writeOk then .migrated v b else .migrateWriteFailed

theorem getLast?_mem' {α : Type} {l : List α} {a : α}
    (h : l.getLast? = some a) : a ∈ l := by
  induction l with
  | nil => simp at h
  | cons x xs ih =>
    cases xs with
    | nil =>
      simp [List.getLast?] at h
      simp [h]
    | cons y ys =>
      rw [List.getLast?_cons_cons] at h
      exact List.mem_cons_of_mem _ (ih h)

/-- C9: legacy migration first expands contracted tokens through the fixed
table; a (single-line) token expanding to exactly `steamdeck` migrates to
`(steamdeck, stable)`; a token expanding to `steamdeck-X` migrates to
`(steamdeck, X)`; every other token is rejected, deleting the legacy file
without writing the preferences. -/
theorem legacy_migration (tok : String) (hnl : ('\n' : Char) ∉ tok.data) :
    (_au_get_expanded_variant "rel" = "steamdeck" ∧
     _au_get_expanded_variant "rc" = "steamdeck-rc" ∧
     _au_get_expanded_variant "beta" = "steamdeck-beta" ∧
     _au_get_expanded_variant "bc" = "steamdeck-bc" ∧
     _au_get_expanded_variant "main" = "steamdeck-main" ∧
     _au_get_expanded_variant "staging" = "steamdeck-staging") ∧
    (_au_get_expanded_variant tok = "steamdeck" →
      _au_load_legacy_preferences (some tok) true =
        .migrated "steamdeck" "stable") ∧
    (strHasStart (_au_get_expanded_variant tok) "steamdeck-" = true →
      _au_load_legacy_preferences (some tok) true =
        .migrated "steamdeck" (strDropChars (_au_get_expanded_variant tok) 10)) ∧
    (_au_get_expanded_variant tok ≠ "steamdeck" →
      strHasStart (_au_get_expanded_variant tok) "steamdeck-" = false →
      _au_load_legacy_preferences (some tok) true = .rejectedDeleted) := by
  have hstripped : (if tok.data.getLast? = some '\n' then tok.data.dropLast
      else tok.data) = tok.data := by
    by_cases h : tok.data.getLast? = some '\n'
    · exact absurd (getLast?_mem' h) hnl
    · simp [h]
  have hmem : (('\n' : Char) ∈ tok.data) = False := by simp [hnl]
  refine ⟨by decide, ?_, ?_, ?_⟩
  · intro h
    simp only [_au_load_legacy_preferences, hstripped, hmem, if_false]
    have : String.mk tok.data = tok := rfl
    rw [this]
    simp [_au_convert_from_legacy_variant, h]
  · intro h
    simp only [_au_load_legacy_preferences, hstripped, hmem, if_false]
    have : String.mk tok.data = tok := rfl
    rw [this]
    by_cases he : _au_get_expanded_variant tok = "steamdeck"
    · have hcontra : strHasStart "steamdeck" "steamdeck-" = true := by
        rw [← he]; exact h
      exact absurd hcontra (by decide)
    · simp [_au_convert_from_legacy_variant, he, h]
  · intro h1 h2
    simp only [_au_load_legacy_preferences, hstripped, hmem, if_false]
    have : String.mk tok.data = tok := rfl
    rw [this]
    simp [_au_convert_from_legacy_variant, h1, h2]

/-- Witness for C9: the contracted token `rel` migrates to
`(steamdeck, stable)`, `beta` to `(steamdeck, beta)`, and the unexpected
token `vanilla` is rejected with the legacy file deleted. -/
theorem legacy_migration_witness :
    _au_load_legacy_preferences (some "rel") true = .migrated "steamdeck" "stable" ∧
    _au_load_legacy_preferences (some "beta") true = .migrated "steamdeck" "beta" ∧
    _au_load_legacy_preferences (some "vanilla") true = .rejectedDeleted :=
  ⟨(legacy_migration "rel" (by decide)).2.1 (by decide),
   by
    have h := (legacy_migration "beta" (by decide)).2.2.1 (by decide)
    rw [h]
    decide,
   (legacy_migration "vanilla" (by decide)).2.2.2 (by decide) (by decide)⟩

/-! ## HTTP proxy handling

Embedding of `_au_get_http_proxy_address_and_port`,
`au_enable_http_proxy_authorized_cb`, and the environment overlay used when
spawning the query/install helpers (au-atomupd1-impl.c).
-/

/-- Embedding of `_au_get_http_proxy_address_and_port`: `NULL` when no proxy
was ever set or when the stored address is the empty string, otherwise
`"addr:port"`. -/
def _au_get_http_proxy_address_and_port (httpProxy : Option (String × Int)) :
    Option String :=
  match httpProxy with
  | none => none
  | some (addr, port) => if addr = "" then none else some (addr ++ ":" ++ toString port)

/-- The `https_proxy`/`http_proxy` overlay applied to the helper spawn
environment in `au_check_for_updates_authorized_cb` and
`au_start_update_authorized_cb`: no overlay when
`_au_get_http_proxy_address_and_port` returns `NULL`. -/
def helperProxyEnv (httpProxy : Option (String × Int)) : List (String × String) :=
  match _au_get_http_proxy_address_and_port httpProxy with
  | none => []
  | some hp => [("https_proxy", hp), ("http_proxy", hp)]

/-- Embedding of `au_enable_http_proxy_authorized_cb`: persists the
preferences with the given proxy pair, then sets the `HttpProxy` property to
exactly that pair. -/
def au_enable_http_proxy_authorized_cb (st : StreamState) (address : String)
    (port : Int) (writeOk : Bool) : Option StreamState :=
  match _au_update_user_preferences st.variant st.branch (some (address, port))
      writeOk with
  | none => none
  | some prefs => some { st with prefs := some prefs, httpProxy := some (address, port) }

/-- C10: an `HttpProxy` whose address component is the empty string behaves
exactly like having no proxy configured: `EnableHttpProxy("", port)` writes a
preferences file without any `[Proxy]` section (identical to the no-proxy
write), helper processes get no `http_proxy`/`https_proxy` overrides, yet the
`HttpProxy` property still reports the pair as given. -/
theorem empty_proxy_address (st : StreamState) (v b : String) (port : Int)
    (writeOk : Bool) :
    _au_update_user_preferences v b (some ("", port)) writeOk =
      _au_update_user_preferences v b none writeOk ∧
    helperProxyEnv (some ("", port)) = [] ∧
    helperProxyEnv none = [] ∧
    (∀ st', au_enable_http_proxy_authorized_cb st "" port true = some st' →
      st'.httpProxy = some ("", port) ∧
      st'.prefs = some ⟨st.variant, st.branch, none⟩ ∧
      helperProxyEnv st'.httpProxy = []) := by
  refine ⟨?_, rfl, rfl, ?_⟩
  · simp [_au_update_user_preferences]
  · intro st' h
    simp [au_enable_http_proxy_authorized_cb, _au_update_user_preferences] at h
    subst h
    exact ⟨rfl, rfl, rfl⟩

/-- Witness for C10 at a concrete state and port. -/
theorem empty_proxy_address_witness :
    ∃ st', au_enable_http_proxy_authorized_cb steamdeckState "" 8080 true = some st' ∧
      st'.httpProxy = some ("", 8080) ∧
      st'.prefs = some ⟨"steamdeck", "stable", none⟩ ∧
      helperProxyEnv st'.httpProxy = [] := by
  refine ⟨{ steamdeckState with
      prefs := some ⟨"steamdeck", "stable", none⟩,
      httpProxy := some ("", 8080) }, by decide, ?_⟩
  exact (empty_proxy_address steamdeckState "steamdeck" "stable" 8080 true).2.2.2
    { steamdeckState with
      prefs := some ⟨"steamdeck", "stable", none⟩,
      httpProxy := some ("", 8080) } (by decide)

/-! ## Install-helper progress parsing

Embedding of `_au_client_stdout_update_cb` (au-atomupd1-impl.c).  The
helper's stdout lines look like `"16.08% 06m35s"`.  Strings are processed as
character lists; `g_strstrip` and `g_strsplit(, " ", 2)` are modelled
directly.
-/

/-- `g_ascii_isspace`. -/
def isSpaceC (c : Char) : Bool :=
  c = ' ' ∨ c = '\t' ∨ c = '\n' ∨ c = '\r' ∨ c = '\x0b' ∨ c = '\x0c'

/-- Remove trailing characters satisfying `isSpaceC`. -/
def trimEndC : List Char → List Char
  | [] => []
  | c :: cs =>
    match trimEndC cs with
    | [] => if isSpaceC c then [] else [c]
    | r => c :: r

/-- `g_strstrip`: remove leading and trailing ASCII whitespace. -/
def trimC (cs : List Char) : List Char := trimEndC (cs.dropWhile isSpaceC)

/-- Split off the part before the first occurrence of `sep`, when present. -/
def splitOnceC (sep : Char) : List Char → Option (List Char × List Char)
  | [] => none
  | c :: cs =>
    if c = sep then some ([], cs)
    else match splitOnceC sep cs with
         | none => none
         | some (t, r) => some (c :: t, r)

/-- `g_strsplit(s, sep, 2)`: at most two tokens, the second being the
remainder; the empty string yields an empty vector. -/
def gSplitMax2 (sep : Char) (cs : List Char) : List (List Char) :=
  if cs = [] then []
  else match splitOnceC sep cs with
       | none => [cs]
       | some (t, r) => [t, r]

/--
Model of `g_ascii_strtod` as used on the percentage token: the value of the
longest `digits[.digits]` numeric prefix, 0 when there is none.  (The full
strtod grammar — sign, exponent, hexadecimal, infinities — never appears in
the helper's output and is not modelled; neither is binary floating-point
rounding, the value is kept as an exact rational.)
-/
def fracPart (cs : List Char) : List Char :=
  match cs.dropWhile isDigitC with
  | '.' :: r => r.takeWhile isDigitC
  | _ => []

def parseDecimalC (cs : List Char) : Rat :=
  (digitsVal (cs.takeWhile isDigitC) : Rat) +
    (digitsVal (fracPart cs) : Rat) / ((10 : Rat) ^ (fracPart cs).length)

mutual

/-- The remaining-time loop of `_au_client_stdout_update_cb`: the loop
iterates while the cursor has not reached the terminating NUL; each
iteration calls `g_ascii_strtoull`, which skips leading ASCII whitespace and
must then find at least one decimal digit — otherwise `endptr` stays at
`cursor` and the callback takes its failure branch.  A leading `+`/`-`
sign, which strtoull would also consume (with unsigned wraparound for `-`),
is mapped to a failure here; the main theorem therefore restricts its
malformed-suffix clause to sign-free suffixes, where this scanner fails
exactly when the C loop does. -/
def timeScan (acc : Int) : List Char → Option Int
  | [] => some acc
  | c :: cs =>
    if isSpaceC c then timeScanStart acc cs
    else if isDigitC c then timeScanNum acc (charVal c) cs
    else none

/-- Inside `g_ascii_strtoull` after at least one whitespace character was
consumed: keep skipping whitespace until a digit starts the number; running
into the end of the string means strtoull found no digits, which the loop
treats as a failure (`cursor == endptr`). -/
def timeScanStart (acc : Int) : List Char → Option Int
  | [] => none
  | c :: cs =>
    if isSpaceC c then timeScanStart acc cs
    else if isDigitC c then timeScanNum acc (charVal c) cs
    else none

/-- Digits of the current number followed by its `d`/`h`/`m`/`s` unit; a
number that runs into the end of the string (`endptr[0] == '\0'`) or into
any other character is a parse failure. -/
def timeScanNum (acc : Int) (v : Nat) : List Char → Option Int
  | [] => none
  | c :: cs =>
    if isDigitC c then timeScanNum acc (10 * v + charVal c) cs
    else
      match c with
      | 'd' => timeScan (acc + 86400 * v) cs
      | 'h' => timeScan (acc + 3600 * v) cs
      | 'm' => timeScan (acc + 60 * v) cs
      | 's' => timeScan (acc + v) cs
      | _ => none

end

/-- At most `k` consecutive digits anywhere in the list (used with `k = 9`,
so every `d`/`h`/`m`/`s` field value stays below 10^9 < 2^31): within this
bound the `gint` parameters of `g_date_time_add_days`/`_hours`/`_minutes`
and the `gdouble` parameter of `g_date_time_add_seconds` represent the
parsed `guint64` exactly, so the calendar additions amount to exact
integer-second arithmetic. -/
def digitRunBound : Nat → List Char → Bool
  | _, [] => true
  | k, c :: cs =>
    if isDigitC c then decide (0 < k) && digitRunBound (k - 1) cs
    else digitRunBound 9 cs

/-- The two properties updated by the progress callback. -/
structure ProgressState where
  progressPercentage : Rat
  estimatedCompletionTime : Int
deriving DecidableEq, Repr

/--
Embedding of `_au_client_stdout_update_cb` (au-atomupd1-impl.c) for one
stdout line; `now` is the UNIX time of `g_date_time_new_now_utc()` (adding
`d`/`h`/`m`/`s` to a UTC timestamp adds the corresponding number of
seconds).  A whitespace-only line makes the C code pass `g_strsplit`'s empty
vector to `g_str_equal(parts[0], ...)` with `parts[0] == NULL`; we model
that degenerate case as leaving the state unchanged.
-/
def _au_client_stdout_update_cb (st : ProgressState) (now : Int) (line : String) :
    ProgressState :=
  match gSplitMax2 ' ' (trimC line.data) with
  | [] => st
  | p0 :: restParts =>
    if p0.length < 2 ∨ p0.getLast? ≠ some '%' then st
    else
      let st1 : ProgressState :=
        { st with progressPercentage := parseDecimalC p0.dropLast }
      match restParts with
      | [] => { st1 with estimatedCompletionTime := 0 }
      | p1 :: _ =>
        match timeScan 0 p1 with
        | none => { st1 with estimatedCompletionTime := 0 }
        | some secs => { st1 with estimatedCompletionTime := now + secs }

/-- C7 counterexample: the line `"abc"` has no percent sign, so the callback
returns before touching either property — the previous (non-zero) estimate is
*not* cleared to 0, contrary to the claim's malformed-line clause. -/
theorem progress_line_counterexample :
    _au_client_stdout_update_cb ⟨50, 999⟩ 1000000 "abc" = ⟨50, 999⟩ ∧
    (_au_client_stdout_update_cb ⟨50, 999⟩ 1000000 "abc").estimatedCompletionTime ≠ 0 := by
  decide

/-- C7 (amended): a well-formed line `P% SUFFIX` sets `ProgressPercentage`
to `P` and `EstimatedCompletionTime` to now plus the greedy left-to-right
`d`/`h`/`m`/`s` accumulation of `SUFFIX`, where each number may be preceded
by whitespace (`g_ascii_strtoull` skips it) — provided each field has at most
nine digits and the resulting time stays within GDateTime's year range, so
that GLib's calendar arithmetic is exact; a line with a percentage token but
no suffix sets the estimate to 0; a percentage token followed by a sign-free
suffix that fails the number/unit grammar still sets the percentage but
clears the estimate to 0 (with a sign, strtoull would keep parsing); a line
whose first token is shorter than two characters or does not end in `%`
leaves both previous values in place (the estimate is *not* cleared). -/
theorem progress_line_parsing (st : ProgressState) (now : Int) (line : String)
    (p0 : List Char) :
    (∀ p1 secs, gSplitMax2 ' ' (trimC line.data) = [p0, p1] →
      ¬(p0.length < 2 ∨ p0.getLast? ≠ some '%') →
      timeScan 0 p1 = some secs →
      digitRunBound 9 p1 = true →
      0 ≤ now → now + secs ≤ 253402300799 →
      _au_client_stdout_update_cb st now line =
        ⟨parseDecimalC p0.dropLast, now + secs⟩) ∧
    (gSplitMax2 ' ' (trimC line.data) = [p0] →
      ¬(p0.length < 2 ∨ p0.getLast? ≠ some '%') →
      _au_client_stdout_update_cb st now line =
        ⟨parseDecimalC p0.dropLast, 0⟩) ∧
    (∀ p1, gSplitMax2 ' ' (trimC line.data) = [p0, p1] →
      ¬(p0.length < 2 ∨ p0.getLast? ≠ some '%') →
      ('+' : Char) ∉ p1 → ('-' : Char) ∉ p1 →
      timeScan 0 p1 = none →
      _au_client_stdout_update_cb st now line =
        ⟨parseDecimalC p0.dropLast, 0⟩) ∧
    (∀ restParts, gSplitMax2 ' ' (trimC line.data) = p0 :: restParts →
      (p0.length < 2 ∨ p0.getLast? ≠ some '%') →
      _au_client_stdout_update_cb st now line = st) := by
  refine ⟨?_, ?_, ?_, ?_⟩
  · intro p1 secs hsplit hok hscan _hrun _hnow _hrange
    simp [_au_client_stdout_update_cb, hsplit, hok, hscan]
  · intro hsplit hok
    simp [_au_client_stdout_update_cb, hsplit, hok]
  · intro p1 hsplit hok _hplus _hminus hscan
    simp [_au_client_stdout_update_cb, hsplit, hok, hscan]
  · intro restParts hsplit hbad
    simp [_au_client_stdout_update_cb, hsplit, hbad]

/-- Witness for C7 (amended) at the spec's scenario line `16.08% 06m35s`
(the suffix accumulates greedily to `6*60 + 35 = 395` seconds), the
whitespace-separated suffix `1m 30s` (strtoull skips the space before `30`,
so the estimate becomes now + 90), plus the suffix-free line `100%` and a
malformed-suffix line. -/
theorem progress_line_parsing_witness :
    _au_client_stdout_update_cb ⟨0, 0⟩ 1000000 "16.08% 06m35s" =
      ⟨parseDecimalC ("16.08".data), 1000395⟩ ∧
    _au_client_stdout_update_cb ⟨0, 0⟩ 1000000 "50.00% 1m 30s" =
      ⟨parseDecimalC ("50.00".data), 1000090⟩ ∧
    parseDecimalC ("16.08".data) = 16 + 8 / 100 ∧
    timeScan 0 ("1h12m05s".data) = some 4325 ∧
    _au_client_stdout_update_cb ⟨0, 0⟩ 1000000 "100%" = ⟨100, 0⟩ ∧
    _au_client_stdout_update_cb ⟨50, 999⟩ 1000000 "4.31% xx" =
      ⟨parseDecimalC ("4.31".data), 0⟩ := by
  refine ⟨?_, ?_, ?_, by decide, ?_, ?_⟩
  · have h := (progress_line_parsing ⟨0, 0⟩ 1000000 "16.08% 06m35s"
      ("16.08%".data)).1 ("06m35s".data) 395 (by decide) (by decide) (by decide)
      (by decide) (by decide) (by decide)
    rw [h]
    have hdl : ("16.08%".data).dropLast = "16.08".data := by decide
    rw [hdl]
    norm_num
  · have h := (progress_line_parsing ⟨0, 0⟩ 1000000 "50.00% 1m 30s"
      ("50.00%".data)).1 ("1m 30s".data) 90 (by decide) (by decide) (by decide)
      (by decide) (by decide) (by decide)
    rw [h]
    have hdl : ("50.00%".data).dropLast = "50.00".data := by decide
    rw [hdl]
    norm_num
  · have h1 : List.takeWhile isDigitC ("16.08".data) = ['1', '6'] := by decide
    have h2 : fracPart ("16.08".data) = ['0', '8'] := by decide
    rw [parseDecimalC, h1, h2]
    have h3 : digitsVal ['1', '6'] = 16 := by decide
    have h4 : digitsVal ['0', '8'] = 8 := by decide
    rw [h3, h4]
    norm_num
  · have h := (progress_line_parsing ⟨0, 0⟩ 1000000 "100%" ("100%".data)).2.1
      (by decide) (by decide)
    rw [h]
    have hdl : ("100%".data).dropLast = "100".data := by decide
    rw [hdl]
    have h1 : List.takeWhile isDigitC ("100".data) = ['1', '0', '0'] := by decide
    have h2 : fracPart ("100".data) = [] := by decide
    rw [parseDecimalC, h1, h2]
    have h3 : digitsVal ['1', '0', '0'] = 100 := by decide
    have h4 : digitsVal ([] : List Char) = 0 := by decide
    rw [h3, h4]
    norm_num
  · have h := (progress_line_parsing ⟨50, 999⟩ 1000000 "4.31% xx"
      ("4.31%".data)).2.2.1 ("xx".data) (by decide) (by decide) (by decide)
      (by decide) (by decide)
    rw [h]
    have hdl : ("4.31%".data).dropLast = "4.31".data := by decide
    rw [hdl]

/-! ## Credential materialisation: the netrc updater

Embedding of `_au_get_host_from_url` and `_au_ensure_urls_in_netrc`
(utils.c).  The netrc file content is processed as a character list:
`getline` chunks become `linesOf`, `g_strstrip` is `trimC`, and
`g_strsplit(line, " ", 3)` is `gSplitMax3`.  The function returns the new
file content; when nothing needed updating the file is not rewritten, so
the input is returned unchanged.
-/

/-- Scan for the first occurrence of `"://"` and drop everything up to and
including it (the `strstr`/`g_string_erase` step of `_au_get_host_from_url`). -/
def dropThroughSchemeSep : List Char → Option (List Char)
  | ':' :: '/' :: '/' :: rest => some rest
  | [] => none
  | _ :: cs => dropThroughSchemeSep cs

/-- Embedding of `_au_get_host_from_url`: strip the scheme separator, then
truncate at the first `/`. -/
def _au_get_host_from_url (url : String) : String :=
  let afterScheme :=
    match dropThroughSchemeSep url.data with
    | some rest => rest
    | none => url.data
  String.mk (afterScheme.takeWhile (· ≠ '/'))

/-- The chunks produced by reading a file with `getline` (each chunk's
trailing newline already removed, as done at the top of the netrc loop). -/
def linesOf : List Char → List (List Char)
  | [] => []
  | c :: cs =>
    if c = '\n' then [] :: linesOf cs
    else
      match linesOf cs with
      | [] => [[c]]
      | l :: ls => (c :: l) :: ls

/-- Join lines back into file content, each line newline-terminated (the
`g_string_append(..., line); g_string_append_c(..., '\n')` discipline). -/
def joinLines (ls : List (List Char)) : List Char :=
  ls.foldr (fun l acc => l ++ '\n' :: acc) []

/-- `g_strsplit(s, sep, 3)`. -/
def gSplitMax3 (sep : Char) (cs : List Char) : List (List Char) :=
  if cs = [] then []
  else
    match splitOnceC sep cs with
    | none => [cs]
    | some (t1, r1) =>
      match splitOnceC sep r1 with
      | none => [t1, r1]
      | some (t2, r2) => [t1, t2, r2]

/-- A `machine <host> <rest>` line: the first token must be `machine` and
both later parts must be present (`parts[1]`/`parts[2]` non-NULL).  A line
whose stripped form is empty makes the C code pass `parts[0] == NULL` to
`g_str_equal`; we treat it as malformed. -/
def parseMachineLine (cs : List Char) : Option (List Char × List Char) :=
  match gSplitMax3 ' ' cs with
  | [m, h, rest] => if m = "machine".data then some (h, rest) else none
  | _ => none

/-- The `"machine %s %s"` line emitted for host `h` with the login text. -/
def mkMachineLine (h login : List Char) : List Char :=
  "machine ".data ++ h ++ ' ' :: login

/-- What the netrc loop does with one line. -/
inductive NetrcAct
  | actSkip
  | actKeep (t : List Char)
  | actKeepHost (t : List Char) (h : List Char)
  | actRewrite (h : List Char)

/-- The branch taken by the netrc loop body for one raw line, given the
remaining wanted-host set `hs`. -/
def netrcLineAct (login : List Char) (hs : List (List Char)) (l : List Char) :
    NetrcAct :=
  if l = [] then .actSkip
  else
    let t := trimC l
    match parseMachineLine t with
    | none => .actSkip
    | some (h, rest) =>
      if h ∈ hs then
        if rest ≠ login then .actRewrite h else .actKeepHost t h
      else .actKeep t

/-- The netrc loop over all lines: returns the kept/rewritten output lines,
the hosts still missing from the file, and whether anything was rewritten. -/
def procLines (login : List Char) (hs : List (List Char)) :
    List (List Char) → List (List Char) × List (List Char) × Bool
  | [] => ([], hs, false)
  | l :: ls =>
    match netrcLineAct login hs l with
    | .actSkip => procLines login hs ls
    | .actKeep t =>
      let r := procLines login hs ls
      (t :: r.1, r.2.1, r.2.2)
    | .actKeepHost t h =>
      let r := procLines login (hs.erase h) ls
      (t :: r.1, r.2.1, r.2.2)
    | .actRewrite h =>
      let r := procLines login (hs.erase h) ls
      (mkMachineLine h login :: r.1, r.2.1, true)

/-- Byte-wise `strcmp(a, b) <= 0` on the modelled ASCII strings. -/
def listLe : List Char → List Char → Bool
  | [], _ => true
  | _ :: _, [] => false
  | a :: as, b :: bs => if a = b then listLe as bs else decide (a.toNat < b.toNat)

/-- Insertion into a `strcmp`-sorted list. -/
def insertSorted (s : List Char) : List (List Char) → List (List Char)
  | [] => [s]
  | t :: ts => if listLe s t then s :: t :: ts else t :: insertSorted s ts

/-- The `g_list_sort(..., strcmp)` over the leftover hosts. -/
def sortHosts (l : List (List Char)) : List (List Char) := l.foldr insertSorted []

/-- The `"login %s password %s"` text. -/
def netrcLogin (username password : String) : List Char :=
  ("login " ++ username ++ " password " ++ password).data

/-- The wanted-host set: hosts of all URLs, deduplicated (`GHashTable`). -/
def netrcHosts (urls : List String) : List (List Char) :=
  ((urls.map (fun u => (_au_get_host_from_url u).data)).dedup)

/--
Embedding of `_au_ensure_urls_in_netrc` (utils.c) as a pure content
transformer: existing entries for wanted hosts are kept (or rewritten when
the login text changed), unrelated and malformed lines are handled as in the
loop, missing hosts are appended in sorted order, and the file is only
rewritten when something actually changed.
-/
def _au_ensure_urls_in_netrc (netrc : String) (urls : List String)
    (username password : String) : String :=
  let login := netrcLogin username password
  let r := procLines login (netrcHosts urls) (linesOf netrc.data)
  let newHosts := sortHosts r.2.1
  let outLines := r.1 ++ newHosts.map (fun h => mkMachineLine h login)
  if r.2.2 ∨ newHosts ≠ [] then String.mk (joinLines outLines) else netrc

/-! ## Credential materialisation: the desync-config updater

Embedding of `_au_ensure_url_in_desync_conf` (utils.c) on the `Json` model;
the input is the parsed config (an absent file is the `{ }` skeleton,
i.e. `Json.jobj []`), and the output is the resulting config content
(`none` when the file does not hold a JSON object).
-/

/-- The three `store-options` keys probed for `url`: the base
`url[/]*/*/` with one, two and three further `*/` appended (3, 4 and 5
stars in total). -/
def desyncKeys (url : String) : List String :=
  let base := url.data ++ (if url.data.getLast? = some '/' then [] else ['/']) ++
    "*/*/".data
  [String.mk (base ++ "*/".data),
   String.mk (base ++ "*/".data ++ "*/".data),
   String.mk (base ++ "*/".data ++ "*/".data ++ "*/".data)]

/--
One iteration of the key loop: an existing object entry has its
`http-auth` member updated when it differs; an absent entry is inserted with
the auth and the 1 s error-retry base interval; an existing non-object entry
makes json-glib emit criticals and every accessor degrade to a no-op, so the
content stays put while the updated flag is set.
-/
def ensureDesyncKey (auth : String) (acc : List (String × Json) × Bool)
    (k : String) : List (String × Json) × Bool :=
  match jLookup acc.1 k with
  | some (.jobj ms) =>
    if jGetStringD ms "http-auth" ≠ some auth then
      (jSetMember acc.1 k (.jobj (jSetMember ms "http-auth" (.jstr auth))), true)
    else acc
  | some _ => (acc.1, true)
  | none =>
    (jSetMember acc.1 k
      (.jobj [("http-auth", .jstr auth),
              ("error-retry-base-interval", .jint 1000000000)]), true)

/-- Embedding of `_au_ensure_url_in_desync_conf` (utils.c). -/
def _au_ensure_url_in_desync_conf (root : Json) (url auth : String) : Option Json :=
  match root with
  | .jobj ms =>
    match jLookup ms "store-options" with
    | some (.jobj so) =>
      let r := (desyncKeys url).foldl (ensureDesyncKey auth) (so, false)
      if r.2 then some (.jobj (jSetMember ms "store-options" (.jobj r.1)))
      else some root
    | some _ => some root
    | none =>
      let r := (desyncKeys url).foldl (ensureDesyncKey auth) ([], false)
      some (.jobj (jSetMember ms "store-options" (.jobj r.1)))
  | _ => none

/-! ### Supporting lemmas about trimming, splitting and line handling -/

theorem trimEndC_cons_eq (c : Char) (cs : List Char) :
    trimEndC (c :: cs) =
      match trimEndC cs with
      | [] => if isSpaceC c then [] else [c]
      | r => c :: r := rfl

theorem trimEndC_cons_of_ne_nil (c : Char) (cs : List Char)
    (h : trimEndC cs ≠ []) : trimEndC (c :: cs) = c :: trimEndC cs := by
  rw [trimEndC_cons_eq]
  cases hx : trimEndC cs with
  | nil => exact absurd hx h
  | cons a as => simp

theorem trimEndC_ne_nil {b : List Char} {c : Char} (hc : c ∈ b)
    (hs : ¬ isSpaceC c = true) : trimEndC b ≠ [] := by
  induction b with
  | nil => simp at hc
  | cons x xs ih =>
    rcases List.mem_cons.mp hc with hcx | hcs
    · subst hcx
      cases hx : trimEndC xs with
      | nil =>
        rw [trimEndC_cons_eq, hx]
        simp [hs]
      | cons a as =>
        rw [trimEndC_cons_of_ne_nil c xs (by simp [hx])]
        simp
    · rw [trimEndC_cons_of_ne_nil x xs (ih hcs)]
      simp

theorem trimEndC_idem (cs : List Char) : trimEndC (trimEndC cs) = trimEndC cs := by
  induction cs with
  | nil => rfl
  | cons c cs ih =>
    cases hx : trimEndC cs with
    | nil =>
      by_cases hsp : isSpaceC c
      · have hcc : trimEndC (c :: cs) = [] := by
          rw [trimEndC_cons_eq, hx]; simp [hsp]
        rw [hcc]; rfl
      · have hcc : trimEndC (c :: cs) = [c] := by
          rw [trimEndC_cons_eq, hx]; simp [hsp]
        rw [hcc, show trimEndC [c] = if isSpaceC c then [] else [c] from rfl]
        simp [hsp]
    | cons a as =>
      have hcc : trimEndC (c :: cs) = c :: trimEndC cs :=
        trimEndC_cons_of_ne_nil c cs (by simp [hx])
      rw [hcc, trimEndC_cons_of_ne_nil c (trimEndC cs) (by rw [ih, hx]; simp), ih]

theorem trimEndC_cons_cases (c : Char) (cs : List Char) :
    trimEndC (c :: cs) = [] ∨ trimEndC (c :: cs) = c :: trimEndC cs := by
  cases hx : trimEndC cs with
  | nil =>
    rw [trimEndC_cons_eq, hx]
    by_cases hsp : isSpaceC c
    · left; simp [hsp]
    · right; simp [hsp, hx]
  | cons a as =>
    right
    rw [trimEndC_cons_of_ne_nil c cs (by simp [hx]), hx]

theorem mem_trimEndC {a : Char} {l : List Char} (h : a ∈ trimEndC l) : a ∈ l := by
  induction l with
  | nil => simp [trimEndC] at h
  | cons c cs ih =>
    rcases trimEndC_cons_cases c cs with hc | hc
    · rw [hc] at h; simp at h
    · rw [hc] at h
      rcases List.mem_cons.mp h with h1 | h2
      · simp [h1]
      · exact List.mem_cons_of_mem _ (ih h2)

theorem trimEndC_append (a b : List Char) (hb : trimEndC b ≠ []) :
    trimEndC (a ++ b) = a ++ trimEndC b := by
  induction a with
  | nil => simp
  | cons c a' ih =>
    have hne : trimEndC (a' ++ b) ≠ [] := by
      rw [ih]
      simp [hb]
    rw [List.cons_append, trimEndC_cons_of_ne_nil c (a' ++ b) hne, ih]
    rfl

theorem mem_dropWhileC {a : Char} {p : Char → Bool} {l : List Char}
    (h : a ∈ l.dropWhile p) : a ∈ l := by
  induction l with
  | nil => simp at h
  | cons c cs ih =>
    rw [List.dropWhile_cons] at h
    by_cases hp : p c
    · simp only [hp, if_true] at h
      exact List.mem_cons_of_mem _ (ih h)
    · simp only [hp, if_false] at h
      exact h

theorem dropWhile_head_false {p : Char → Bool} {l : List Char} {c : Char}
    {cs : List Char} (h : l.dropWhile p = c :: cs) : p c = false := by
  induction l with
  | nil => simp at h
  | cons x xs ih =>
    rw [List.dropWhile_cons] at h
    by_cases hp : p x
    · simp only [hp, if_true] at h
      exact ih h
    · simp only [hp, if_false] at h
      injection h with h1 _
      subst h1
      simp at hp
      simp [hp]

theorem dropWhile_trimEndC_dropWhile (l : List Char) :
    (trimEndC (l.dropWhile isSpaceC)).dropWhile isSpaceC =
      trimEndC (l.dropWhile isSpaceC) := by
  cases hd : l.dropWhile isSpaceC with
  | nil => rfl
  | cons c cs =>
    have hc : isSpaceC c = false := dropWhile_head_false hd
    rcases trimEndC_cons_cases c cs with h | h
    · rw [h]; rfl
    · rw [h, List.dropWhile_cons_of_neg (by simp [hc])]

theorem trimC_idem (l : List Char) : trimC (trimC l) = trimC l := by
  unfold trimC
  rw [dropWhile_trimEndC_dropWhile, trimEndC_idem]

theorem mem_trimC {a : Char} {l : List Char} (h : a ∈ trimC l) : a ∈ l :=
  mem_dropWhileC (mem_trimEndC h)

theorem splitOnceC_of_not_mem {sep : Char} {cs : List Char} (h : sep ∉ cs) :
    splitOnceC sep cs = none := by
  induction cs with
  | nil => rfl
  | cons c cs ih =>
    have hc : c ≠ sep := fun he => h (he ▸ List.mem_cons_self c cs)
    unfold splitOnceC
    rw [if_neg hc, ih (fun hm => h (List.mem_cons_of_mem _ hm))]

theorem splitOnceC_append {sep : Char} {a b : List Char} (h : sep ∉ a) :
    splitOnceC sep (a ++ sep :: b) = some (a, b) := by
  induction a with
  | nil => simp [splitOnceC]
  | cons c a' ih =>
    have hc : c ≠ sep := fun he => h (he ▸ List.mem_cons_self c a')
    rw [List.cons_append]
    unfold splitOnceC
    rw [if_neg hc, ih (fun hm => h (List.mem_cons_of_mem _ hm))]

theorem machinePrefixData : "machine ".data = "machine".data ++ [' '] := by decide

theorem parseMachineLine_machine {h : List Char} (hh : (' ' : Char) ∉ h)
    (rest : List Char) :
    parseMachineLine ("machine ".data ++ h ++ ' ' :: rest) = some (h, rest) := by
  have heq : "machine ".data ++ h ++ ' ' :: rest =
      "machine".data ++ ' ' :: (h ++ ' ' :: rest) := by
    rw [machinePrefixData]
    simp
  rw [heq]
  have h1 : splitOnceC ' ' ("machine".data ++ ' ' :: (h ++ ' ' :: rest)) =
      some ("machine".data, h ++ ' ' :: rest) := splitOnceC_append (by decide)
  have h2 : splitOnceC ' ' (h ++ ' ' :: rest) = some (h, rest) :=
    splitOnceC_append hh
  unfold parseMachineLine gSplitMax3
  rw [if_neg (by simp), h1]
  simp [h2]

theorem trimC_mkMachineLine (h login : List Char) (hlogin : trimEndC login ≠ []) :
    trimC (mkMachineLine h login) = "machine ".data ++ h ++ ' ' :: trimEndC login := by
  unfold trimC mkMachineLine
  have hfront : ("machine ".data ++ h ++ ' ' :: login).dropWhile isSpaceC =
      "machine ".data ++ h ++ ' ' :: login := by
    have : "machine ".data ++ h ++ ' ' :: login =
        'm' :: ("achine ".data ++ h ++ ' ' :: login) := by
      rw [show "machine ".data = 'm' :: "achine ".data from rfl]
      simp
    rw [this, List.dropWhile_cons_of_neg (by decide)]
  rw [hfront]
  have hsp : trimEndC (' ' :: login) = ' ' :: trimEndC login :=
    trimEndC_cons_of_ne_nil ' ' login hlogin
  have hne1 : trimEndC (' ' :: login) ≠ [] := by rw [hsp]; simp
  calc trimEndC ("machine ".data ++ h ++ ' ' :: login)
      = trimEndC (("machine ".data ++ h) ++ ' ' :: login) := by rw [List.append_assoc]
    _ = ("machine ".data ++ h) ++ trimEndC (' ' :: login) :=
        trimEndC_append _ _ hne1
    _ = "machine ".data ++ h ++ ' ' :: trimEndC login := by rw [hsp, List.append_assoc]

/-! ### Replay lemmas: re-processing the netrc updater's own output -/

theorem parseMachineLine_ne_nil {t : List Char} {h rest : List Char}
    (hp : parseMachineLine t = some (h, rest)) : t ≠ [] := by
  intro he
  subst he
  simp [parseMachineLine, gSplitMax3] at hp

theorem netrcLineAct_keep_inv {login : List Char} {hs : List (List Char)}
    {l t : List Char} (h : netrcLineAct login hs l = .actKeep t) :
    t = trimC l ∧ ∃ h0 rest, parseMachineLine t = some (h0, rest) ∧ h0 ∉ hs := by
  unfold netrcLineAct at h
  by_cases hl : l = []
  · simp [hl] at h
  · simp only [hl, if_false] at h
    cases hp : parseMachineLine (trimC l) with
    | none => rw [hp] at h; exact absurd h (by simp)
    | some pr =>
      obtain ⟨h0, rest⟩ := pr
      rw [hp] at h
      by_cases hm : h0 ∈ hs
      · by_cases hr : rest ≠ login <;> simp [hm, hr] at h
      · simp only [hm, if_false] at h
        injection h with ht
        exact ⟨ht.symm, h0, rest, ht ▸ hp, hm⟩

theorem netrcLineAct_keepHost_inv {login : List Char} {hs : List (List Char)}
    {l t h0 : List Char} (h : netrcLineAct login hs l = .actKeepHost t h0) :
    t = trimC l ∧ parseMachineLine t = some (h0, login) ∧ h0 ∈ hs := by
  unfold netrcLineAct at h
  by_cases hl : l = []
  · simp [hl] at h
  · simp only [hl, if_false] at h
    cases hp : parseMachineLine (trimC l) with
    | none => rw [hp] at h; exact absurd h (by simp)
    | some pr =>
      obtain ⟨h1, rest⟩ := pr
      rw [hp] at h
      by_cases hm : h1 ∈ hs
      · by_cases hr : rest ≠ login
        · simp [hm, hr] at h
        · simp only [hm, hr, if_true, if_false] at h
          injection h with ht hh
          push_neg at hr
          subst ht; subst hh; subst hr
          exact ⟨rfl, hp, hm⟩
      · simp [hm] at h

theorem netrcLineAct_rewrite_inv {login : List Char} {hs : List (List Char)}
    {l h0 : List Char} (h : netrcLineAct login hs l = .actRewrite h0) :
    ∃ rest, parseMachineLine (trimC l) = some (h0, rest) ∧ rest ≠ login ∧
      h0 ∈ hs := by
  unfold netrcLineAct at h
  by_cases hl : l = []
  · simp [hl] at h
  · simp only [hl, if_false] at h
    cases hp : parseMachineLine (trimC l) with
    | none => rw [hp] at h; exact absurd h (by simp)
    | some pr =>
      obtain ⟨h1, rest⟩ := pr
      rw [hp] at h
      simp only at h
      by_cases hm : h1 ∈ hs
      · by_cases hr : rest ≠ login
        · rw [if_pos hm, if_pos hr] at h
          injection h with hh
          subst hh
          exact ⟨rest, rfl, hr, hm⟩
        · simp [hm, hr] at h
      · simp [hm] at h

theorem netrcLineAct_on_parsed {login : List Char} {t h0 rest : List Char}
    (hp : parseMachineLine t = some (h0, rest)) (htr : trimC t = t)
    (hs : List (List Char)) :
    netrcLineAct login hs t =
      if h0 ∈ hs then
        (if rest ≠ login then .actRewrite h0 else .actKeepHost t h0)
      else .actKeep t := by
  unfold netrcLineAct
  rw [if_neg (parseMachineLine_ne_nil hp)]
  simp only [htr, hp]

/-- Processing a freshly written `machine <h> <login>` line: the same line is
emitted again and `h` is taken off the wanted set (the flag may or may not be
set again, depending on whether the login text survives `g_strstrip`). -/
theorem procLines_mkLine_cons {login h0 : List Char} (hlt : trimEndC login ≠ [])
    (hh : (' ' : Char) ∉ h0) {hs : List (List Char)} (hmem : h0 ∈ hs)
    (rest : List (List Char)) :
    ∃ u0, procLines login hs (mkMachineLine h0 login :: rest) =
      (mkMachineLine h0 login :: (procLines login (hs.erase h0) rest).1,
       (procLines login (hs.erase h0) rest).2.1,
       (u0 || (procLines login (hs.erase h0) rest).2.2)) := by
  have htr : trimC (mkMachineLine h0 login) =
      "machine ".data ++ h0 ++ ' ' :: trimEndC login :=
    trimC_mkMachineLine h0 login hlt
  have hp : parseMachineLine (trimC (mkMachineLine h0 login)) =
      some (h0, trimEndC login) := by
    rw [htr]
    exact parseMachineLine_machine hh _
  have hne : mkMachineLine h0 login ≠ [] := by
    unfold mkMachineLine
    rw [show "machine ".data = 'm' :: "achine ".data from rfl]
    simp
  by_cases hre : trimEndC login ≠ login
  · refine ⟨true, ?_⟩
    have hact : netrcLineAct login hs (mkMachineLine h0 login) = .actRewrite h0 := by
      unfold netrcLineAct
      rw [if_neg hne]
      simp only [hp]
      rw [if_pos hmem, if_pos hre]
    simp [procLines, hact]
  · push_neg at hre
    refine ⟨false, ?_⟩
    have hact : netrcLineAct login hs (mkMachineLine h0 login) =
        .actKeepHost (trimC (mkMachineLine h0 login)) h0 := by
      unfold netrcLineAct
      rw [if_neg hne]
      simp only [hp]
      rw [if_pos hmem, if_neg (by simp [hre])]
    have htt : trimC (mkMachineLine h0 login) = mkMachineLine h0 login := by
      rw [htr, hre]
      rfl
    simp [procLines, hact, htt]

/-- Re-processing the loop's own output lines with the original wanted-host
set keeps every line as it is and ends with the same leftover hosts. -/
theorem procLines_replay {login : List Char} (hlt : trimEndC login ≠ [])
    (ls : List (List Char)) :
    ∀ hs : List (List Char), (∀ h0 ∈ hs, (' ' : Char) ∉ h0) →
    ∃ u', procLines login hs (procLines login hs ls).1 =
      ((procLines login hs ls).1, (procLines login hs ls).2.1, u') := by
  induction ls with
  | nil => exact fun hs _ => ⟨false, rfl⟩
  | cons l ls ih =>
    intro hs hgood
    cases hact : netrcLineAct login hs l with
    | actSkip =>
      have he : procLines login hs (l :: ls) = procLines login hs ls := by
        simp [procLines, hact]
      rw [he]
      exact ih hs hgood
    | actKeep t =>
      obtain ⟨ht, h0, rest, hp, hnm⟩ := netrcLineAct_keep_inv hact
      have he : procLines login hs (l :: ls) =
          (t :: (procLines login hs ls).1, (procLines login hs ls).2.1,
           (procLines login hs ls).2.2) := by
        simp [procLines, hact]
      rw [he]
      have htr : trimC t = t := by rw [ht, trimC_idem]
      have hact2 : netrcLineAct login hs t = .actKeep t :=
        (netrcLineAct_on_parsed hp htr hs).trans (by simp [hnm])
      obtain ⟨u', hu⟩ := ih hs hgood
      exact ⟨u', by simp [procLines, hact2, hu]⟩
    | actKeepHost t h0 =>
      obtain ⟨ht, hp, hmem⟩ := netrcLineAct_keepHost_inv hact
      have he : procLines login hs (l :: ls) =
          (t :: (procLines login (hs.erase h0) ls).1,
           (procLines login (hs.erase h0) ls).2.1,
           (procLines login (hs.erase h0) ls).2.2) := by
        simp [procLines, hact]
      rw [he]
      have htr : trimC t = t := by rw [ht, trimC_idem]
      have hact2 : netrcLineAct login hs t = .actKeepHost t h0 :=
        (netrcLineAct_on_parsed hp htr hs).trans (by simp [hmem])
      obtain ⟨u', hu⟩ := ih (hs.erase h0)
        (fun h1 hm => hgood h1 (List.erase_subset _ _ hm))
      exact ⟨u', by simp [procLines, hact2, hu]⟩
    | actRewrite h0 =>
      obtain ⟨rest, hp, hrne, hmem⟩ := netrcLineAct_rewrite_inv hact
      have he : procLines login hs (l :: ls) =
          (mkMachineLine h0 login :: (procLines login (hs.erase h0) ls).1,
           (procLines login (hs.erase h0) ls).2.1, true) := by
        simp [procLines, hact]
      rw [he]
      obtain ⟨u', hu⟩ := ih (hs.erase h0)
        (fun h1 hm => hgood h1 (List.erase_subset _ _ hm))
      obtain ⟨u0, hc⟩ := procLines_mkLine_cons hlt (hgood h0 hmem) hmem
        (procLines login (hs.erase h0) ls).1
      refine ⟨u0 || u', ?_⟩
      rw [hc, hu]

theorem erase_instances (hs : List (List Char)) (h0 : List Char) :
    @List.erase (List Char) instBEqOfDecidableEq hs h0 =
    @List.erase (List Char) List.instBEq hs h0 := by
  induction hs with
  | nil => rfl
  | cons b bs ih =>
    by_cases hb : b = h0
    · subst hb
      simp [List.erase_cons]
    · simp [List.erase_cons, hb, ih]

theorem procLines_append (login : List Char) (as : List (List Char)) :
    ∀ (bs : List (List Char)) (hs : List (List Char)),
    procLines login hs (as ++ bs) =
      ((procLines login hs as).1 ++
        (procLines login (procLines login hs as).2.1 bs).1,
       (procLines login (procLines login hs as).2.1 bs).2.1,
       ((procLines login hs as).2.2 ||
        (procLines login (procLines login hs as).2.1 bs).2.2)) := by
  induction as with
  | nil => intro bs hs; simp [procLines]
  | cons l as ih =>
    intro bs hs
    cases hact : netrcLineAct login hs l with
    | actSkip => simpa [procLines, hact] using ih bs hs
    | actKeep t => simp [procLines, hact, ih bs hs]
    | actKeepHost t h0 => simp [procLines, hact, ih bs (hs.erase h0)]
    | actRewrite h0 => simp [procLines, hact, ih bs (hs.erase h0)]

theorem procLines_mkLines {login : List Char} (hlt : trimEndC login ≠ [])
    (ss : List (List Char)) :
    ∀ hs : List (List Char), ss.Perm hs → (∀ h0 ∈ hs, (' ' : Char) ∉ h0) →
    ∃ u, procLines login hs (ss.map (fun h0 => mkMachineLine h0 login)) =
      (ss.map (fun h0 => mkMachineLine h0 login), [], u) := by
  induction ss with
  | nil =>
    intro hs hperm _
    rw [List.Perm.eq_nil hperm.symm]
    exact ⟨false, rfl⟩
  | cons h0 ss' ih =>
    intro hs hperm hgood
    have hmem : h0 ∈ hs := hperm.mem_iff.mp (List.mem_cons_self h0 ss')
    have hperm' : ss'.Perm (hs.erase h0) := by
      have h2 := (List.cons_perm_iff_perm_erase.mp hperm).2
      rwa [erase_instances] at h2
    obtain ⟨u', hu⟩ := ih (hs.erase h0) hperm'
      (fun h1 hm => hgood h1 (List.erase_subset _ _ hm))
    obtain ⟨u0, hc⟩ := procLines_mkLine_cons hlt (hgood h0 hmem) hmem
      (ss'.map (fun h1 => mkMachineLine h1 login))
    refine ⟨u0 || u', ?_⟩
    rw [List.map_cons, hc, hu]

theorem linesOf_no_nl (cs : List Char) :
    ∀ l ∈ linesOf cs, ('\n' : Char) ∉ l := by
  induction cs with
  | nil => simp [linesOf]
  | cons c cs ih =>
    intro l hl
    unfold linesOf at hl
    by_cases hc : c = '\n'
    · simp only [hc, if_true] at hl
      rcases List.mem_cons.mp hl with h1 | h2
      · simp [h1]
      · exact ih l h2
    · simp only [hc, if_false] at hl
      cases hx : linesOf cs with
      | nil =>
        rw [hx] at hl
        simp at hl
        subst hl
        simp [hc, Ne.symm hc]
      | cons l0 ls0 =>
        rw [hx] at hl
        rcases List.mem_cons.mp hl with h1 | h2
        · subst h1
          intro hmem
          rcases List.mem_cons.mp hmem with h3 | h4
          · exact hc h3.symm
          · exact ih l0 (hx ▸ List.mem_cons_self l0 ls0) h4
        · exact ih l (hx ▸ List.mem_cons_of_mem l0 h2)

theorem procLines_out_no_nl {login : List Char} (hlogin : ('\n' : Char) ∉ login)
    (ls : List (List Char)) :
    ∀ hs : List (List Char), (∀ h0 ∈ hs, ('\n' : Char) ∉ h0) →
    (∀ l ∈ ls, ('\n' : Char) ∉ l) →
    ∀ l ∈ (procLines login hs ls).1, ('\n' : Char) ∉ l := by
  induction ls with
  | nil => intro hs _ _ l hl; simp [procLines] at hl
  | cons l0 ls ih =>
    intro hs hhosts hlines l hl
    have hl0 : ('\n' : Char) ∉ l0 := hlines l0 (List.mem_cons_self l0 ls)
    have hrest : ∀ l' ∈ ls, ('\n' : Char) ∉ l' :=
      fun l' hm => hlines l' (List.mem_cons_of_mem l0 hm)
    cases hact : netrcLineAct login hs l0 with
    | actSkip =>
      rw [show procLines login hs (l0 :: ls) = procLines login hs ls from by
        simp [procLines, hact]] at hl
      exact ih hs hhosts hrest l hl
    | actKeep t =>
      obtain ⟨ht, _, _, _, _⟩ := netrcLineAct_keep_inv hact
      rw [show (procLines login hs (l0 :: ls)).1 =
          t :: (procLines login hs ls).1 from by simp [procLines, hact]] at hl
      rcases List.mem_cons.mp hl with h1 | h2
      · subst h1
        subst ht
        exact fun hm => hl0 (mem_trimC hm)
      · exact ih hs hhosts hrest l h2
    | actKeepHost t h0 =>
      obtain ⟨ht, _, _⟩ := netrcLineAct_keepHost_inv hact
      rw [show (procLines login hs (l0 :: ls)).1 =
          t :: (procLines login (hs.erase h0) ls).1 from by
        simp [procLines, hact]] at hl
      rcases List.mem_cons.mp hl with h1 | h2
      · subst h1
        subst ht
        exact fun hm => hl0 (mem_trimC hm)
      · exact ih (hs.erase h0)
          (fun h1 hm => hhosts h1 (List.erase_subset _ _ hm)) hrest l h2
    | actRewrite h0 =>
      obtain ⟨rest, _, _, hmem⟩ := netrcLineAct_rewrite_inv hact
      rw [show (procLines login hs (l0 :: ls)).1 =
          mkMachineLine h0 login :: (procLines login (hs.erase h0) ls).1 from by
        simp [procLines, hact]] at hl
      rcases List.mem_cons.mp hl with h1 | h2
      · subst h1
        intro hm
        unfold mkMachineLine at hm
        rcases List.mem_append.mp hm with hm1 | hm2
        · rcases List.mem_append.mp hm1 with hm3 | hm4
          · simp at hm3
          · exact hhosts h0 hmem hm4
        · rcases List.mem_cons.mp hm2 with hm3 | hm4
          · simp at hm3
          · exact hlogin hm4
      · exact ih (hs.erase h0)
          (fun h1 hm => hhosts h1 (List.erase_subset _ _ hm)) hrest l h2

theorem procLines_hosts_subset (login : List Char) (ls : List (List Char)) :
    ∀ hs : List (List Char), (procLines login hs ls).2.1 ⊆ hs := by
  induction ls with
  | nil => intro hs; simp [procLines]
  | cons l ls ih =>
    intro hs
    cases hact : netrcLineAct login hs l with
    | actSkip => simpa [procLines, hact] using ih hs
    | actKeep t => simpa [procLines, hact] using ih hs
    | actKeepHost t h0 =>
      have := ih (hs.erase h0)
      simp only [procLines, hact]
      exact this.trans (List.erase_subset _ _)
    | actRewrite h0 =>
      have := ih (hs.erase h0)
      simp only [procLines, hact]
      exact this.trans (List.erase_subset _ _)

theorem insertSorted_perm (s : List Char) (l : List (List Char)) :
    (insertSorted s l).Perm (s :: l) := by
  induction l with
  | nil => exact List.Perm.refl _
  | cons t ts ih =>
    unfold insertSorted
    by_cases hle : listLe s t
    · simp [hle]
    · simp only [hle, if_false]
      exact (List.Perm.cons t ih).trans (List.Perm.swap s t ts)

theorem sortHosts_perm (l : List (List Char)) : (sortHosts l).Perm l := by
  induction l with
  | nil => exact List.Perm.refl _
  | cons x xs ih =>
    exact (insertSorted_perm x (sortHosts xs)).trans (List.Perm.cons x ih)

theorem linesOf_append_line (l rest : List Char) (hl : ('\n' : Char) ∉ l) :
    linesOf (l ++ '\n' :: rest) = l :: linesOf rest := by
  induction l with
  | nil => simp [linesOf]
  | cons c l' ih =>
    have hc : ¬ c = '\n' := fun he => hl (he ▸ List.mem_cons_self c l')
    have ih' := ih (fun hm => hl (List.mem_cons_of_mem c hm))
    rw [List.cons_append]
    rw [show linesOf (c :: (l' ++ '\n' :: rest)) =
        (if c = '\n' then [] :: linesOf (l' ++ '\n' :: rest)
         else match linesOf (l' ++ '\n' :: rest) with
              | [] => [[c]]
              | l :: ls => (c :: l) :: ls) from rfl]
    rw [if_neg hc, ih']

theorem linesOf_joinLines (ls : List (List Char))
    (h : ∀ l ∈ ls, ('\n' : Char) ∉ l) : linesOf (joinLines ls) = ls := by
  induction ls with
  | nil => rfl
  | cons l ls ih =>
    have : joinLines (l :: ls) = l ++ '\n' :: joinLines ls := rfl
    rw [this, linesOf_append_line l _ (h l (List.mem_cons_self l ls)),
      ih (fun l' hm => h l' (List.mem_cons_of_mem l hm))]

theorem mkMachineLine_no_nl {h0 login : List Char} (hh : ('\n' : Char) ∉ h0)
    (hl : ('\n' : Char) ∉ login) : ('\n' : Char) ∉ mkMachineLine h0 login := by
  intro hm
  unfold mkMachineLine at hm
  rcases List.mem_append.mp hm with hm1 | hm2
  · rcases List.mem_append.mp hm1 with hm3 | hm4
    · simp at hm3
    · exact hh hm4
  · rcases List.mem_cons.mp hm2 with hm3 | hm4
    · simp at hm3
    · exact hl hm4

theorem netrcLogin_no_nl {username password : String}
    (huser : ('\n' : Char) ∉ username.data)
    (hpass : ('\n' : Char) ∉ password.data) :
    ('\n' : Char) ∉ netrcLogin username password := by
  unfold netrcLogin
  intro hm
  rw [String.data_append, String.data_append, String.data_append] at hm
  rcases List.mem_append.mp hm with hm1 | hm2
  · rcases List.mem_append.mp hm1 with hm3 | hm4
    · rcases List.mem_append.mp hm3 with hm5 | hm6
      · exact absurd hm5 (by decide)
      · exact huser hm6
    · exact absurd hm4 (by decide)
  · exact hpass hm2

theorem netrcLogin_trimEnd_ne_nil (username password : String) :
    trimEndC (netrcLogin username password) ≠ [] := by
  apply trimEndC_ne_nil (c := 'l')
  · unfold netrcLogin
    rw [String.data_append, String.data_append, String.data_append]
    exact List.mem_append_left _ (List.mem_append_left _
      (List.mem_append_left _ (by decide)))
  · decide

/-- Idempotence of the netrc updater, provided the hosts carry no space or
newline and the credentials carry no newline (otherwise re-reading the file
splits the injected lines differently, see the counterexample). -/
theorem netrc_idempotent (x : String) (urls : List String)
    (username password : String)
    (hhosts : ∀ u ∈ urls, (' ' : Char) ∉ (_au_get_host_from_url u).data ∧
      ('\n' : Char) ∉ (_au_get_host_from_url u).data)
    (huser : ('\n' : Char) ∉ username.data)
    (hpass : ('\n' : Char) ∉ password.data) :
    _au_ensure_urls_in_netrc (_au_ensure_urls_in_netrc x urls username password)
      urls username password =
    _au_ensure_urls_in_netrc x urls username password := by
  have hlognl : ('\n' : Char) ∉ netrcLogin username password :=
    netrcLogin_no_nl huser hpass
  have hlt : trimEndC (netrcLogin username password) ≠ [] :=
    netrcLogin_trimEnd_ne_nil username password
  have hgood : ∀ h0 ∈ netrcHosts urls,
      (' ' : Char) ∉ h0 ∧ ('\n' : Char) ∉ h0 := by
    intro h0 hm
    unfold netrcHosts at hm
    rw [List.mem_dedup] at hm
    obtain ⟨u, hu, rfl⟩ := List.mem_map.mp hm
    exact hhosts u hu
  rcases hproc : procLines (netrcLogin username password) (netrcHosts urls)
      (linesOf x.data) with ⟨o, rest⟩
  rcases rest with ⟨rem, u⟩
  have hfx : _au_ensure_urls_in_netrc x urls username password =
      (if u = true ∨ sortHosts rem ≠ [] then
        String.mk (joinLines (o ++ (sortHosts rem).map
          (fun h0 => mkMachineLine h0 (netrcLogin username password))))
      else x) := by
    simp only [_au_ensure_urls_in_netrc, hproc]
  by_cases hup : u = true ∨ sortHosts rem ≠ []
  · rw [hfx, if_pos hup]
    have hrem_sub : rem ⊆ netrcHosts urls := by
      have hs := procLines_hosts_subset (netrcLogin username password)
        (linesOf x.data) (netrcHosts urls)
      rw [hproc] at hs
      exact hs
    have ho_nl : ∀ l ∈ o, ('\n' : Char) ∉ l := by
      have hs := procLines_out_no_nl hlognl (linesOf x.data) (netrcHosts urls)
        (fun h0 hm => (hgood h0 hm).2) (linesOf_no_nl x.data)
      rw [hproc] at hs
      exact hs
    have hms_nl : ∀ l ∈ (sortHosts rem).map
        (fun h0 => mkMachineLine h0 (netrcLogin username password)),
        ('\n' : Char) ∉ l := by
      intro l hm
      obtain ⟨h0, hh0, rfl⟩ := List.mem_map.mp hm
      have hh0' : h0 ∈ rem := (sortHosts_perm rem).mem_iff.mp hh0
      exact mkMachineLine_no_nl (hgood h0 (hrem_sub hh0')).2 hlognl
    have hlines : linesOf (String.mk (joinLines (o ++ (sortHosts rem).map
        (fun h0 => mkMachineLine h0 (netrcLogin username password))))).data =
        o ++ (sortHosts rem).map
          (fun h0 => mkMachineLine h0 (netrcLogin username password)) := by
      show linesOf (joinLines _) = _
      apply linesOf_joinLines
      intro l hm
      rcases List.mem_append.mp hm with hm1 | hm2
      · exact ho_nl l hm1
      · exact hms_nl l hm2
    obtain ⟨u', hu'⟩ := procLines_replay hlt (linesOf x.data) (netrcHosts urls)
      (fun h0 hm => (hgood h0 hm).1)
    rw [hproc] at hu'
    simp only [Prod.fst, Prod.snd] at hu'
    obtain ⟨u2, hu2⟩ := procLines_mkLines hlt (sortHosts rem) rem
      (sortHosts_perm rem) (fun h0 hm => (hgood h0 (hrem_sub hm)).1)
    have happ := procLines_append (netrcLogin username password) o
      ((sortHosts rem).map (fun h0 => mkMachineLine h0
        (netrcLogin username password))) (netrcHosts urls)
    rw [hu'] at happ
    simp only [Prod.fst, Prod.snd] at happ
    rw [hu2] at happ
    simp only [Prod.fst, Prod.snd] at happ
    simp only [_au_ensure_urls_in_netrc]
    rw [hlines, happ]
    simp only [sortHosts, List.foldr_nil, List.map_nil, List.append_nil]
    by_cases hg : (u' || u2) = true ∨ ([] : List (List Char)) ≠ []
    · rw [if_pos hg]
    · rw [if_neg hg]
  · rw [hfx, if_neg hup, hfx, if_neg hup]

/-! ### Idempotence of the desync-config updater -/

theorem jLookup_jSetMember_self (ms : List (String × Json)) (k : String) (v : Json) :
    jLookup (jSetMember ms k v) k = some v := by
  induction ms with
  | nil => simp [jSetMember, jLookup]
  | cons p rest ih =>
    obtain ⟨k', v'⟩ := p
    by_cases hk : k' = k
    · simp [jSetMember, jLookup, hk]
    · simp [jSetMember, jLookup, hk, ih]

theorem jLookup_jSetMember_ne (ms : List (String × Json)) {k' k : String}
    (h : k' ≠ k) (v : Json) : jLookup (jSetMember ms k' v) k = jLookup ms k := by
  induction ms with
  | nil => simp [jSetMember, jLookup, h]
  | cons p rest ih =>
    obtain ⟨k0, v0⟩ := p
    by_cases hk : k0 = k'
    · subst hk
      simp [jSetMember, jLookup, h]
    · simp [jSetMember, jLookup, hk, ih]

theorem jSetMember_jSetMember_self (ms : List (String × Json)) (k : String)
    (v w : Json) : jSetMember (jSetMember ms k v) k w = jSetMember ms k w := by
  induction ms with
  | nil => simp [jSetMember]
  | cons p rest ih =>
    obtain ⟨k0, v0⟩ := p
    by_cases hk : k0 = k
    · simp [jSetMember, hk]
    · simp [jSetMember, hk, ih]

/-- A `store-options` entry that the key loop will not change any more:
either an object whose `http-auth` already equals the target, or a
non-object value (which json-glib criticals leave untouched). -/
def keyStable (auth : String) (so : List (String × Json)) (k : String) : Prop :=
  match jLookup so k with
  | some (.jobj ms) => jGetStringD ms "http-auth" = some auth
  | some _ => True
  | none => False

theorem ensureDesyncKey_fst_stable (auth : String) (so : List (String × Json))
    (b : Bool) (k : String) :
    keyStable auth (ensureDesyncKey auth (so, b) k).1 k := by
  cases hl : jLookup so k with
  | none =>
    have he : (ensureDesyncKey auth (so, b) k).1 =
        jSetMember so k (.jobj [("http-auth", .jstr auth),
          ("error-retry-base-interval", .jint 1000000000)]) := by
      unfold ensureDesyncKey
      simp [hl]
    rw [he]
    unfold keyStable
    rw [jLookup_jSetMember_self]
    simp [jGetStringD, jLookup]
  | some v =>
    cases v with
    | jobj ms =>
      by_cases hne : jGetStringD ms "http-auth" ≠ some auth
      · have he : (ensureDesyncKey auth (so, b) k).1 =
            jSetMember so k (.jobj (jSetMember ms "http-auth" (.jstr auth))) := by
          unfold ensureDesyncKey
          simp [hl, hne]
        rw [he]
        unfold keyStable
        rw [jLookup_jSetMember_self]
        simp [jGetStringD, jLookup_jSetMember_self]
      · have he : (ensureDesyncKey auth (so, b) k).1 = so := by
          unfold ensureDesyncKey
          simp [hl, hne]
        rw [he]
        unfold keyStable
        rw [hl]
        push_neg at hne
        exact hne
    | jnull =>
      have he : (ensureDesyncKey auth (so, b) k).1 = so := by
        unfold ensureDesyncKey
        simp [hl]
      rw [he]
      unfold keyStable
      rw [hl]
      trivial
    | jbool b0 =>
      have he : (ensureDesyncKey auth (so, b) k).1 = so := by
        unfold ensureDesyncKey
        simp [hl]
      rw [he]
      unfold keyStable
      rw [hl]
      trivial
    | jint n =>
      have he : (ensureDesyncKey auth (so, b) k).1 = so := by
        unfold ensureDesyncKey
        simp [hl]
      rw [he]
      unfold keyStable
      rw [hl]
      trivial
    | jstr s0 =>
      have he : (ensureDesyncKey auth (so, b) k).1 = so := by
        unfold ensureDesyncKey
        simp [hl]
      rw [he]
      unfold keyStable
      rw [hl]
      trivial
    | jarr xs =>
      have he : (ensureDesyncKey auth (so, b) k).1 = so := by
        unfold ensureDesyncKey
        simp [hl]
      rw [he]
      unfold keyStable
      rw [hl]
      trivial

theorem ensureDesyncKey_fst_preserve (auth : String) (so : List (String × Json))
    (b : Bool) {k k' : String} (hne : k ≠ k')
    (hst : keyStable auth so k') :
    keyStable auth (ensureDesyncKey auth (so, b) k).1 k' := by
  cases hl : jLookup so k with
  | none =>
    have he : (ensureDesyncKey auth (so, b) k).1 =
        jSetMember so k (.jobj [("http-auth", .jstr auth),
          ("error-retry-base-interval", .jint 1000000000)]) := by
      unfold ensureDesyncKey
      simp [hl]
    rw [he]
    unfold keyStable
    rw [jLookup_jSetMember_ne _ hne]
    exact hst
  | some v =>
    cases v with
    | jobj ms =>
      by_cases hauth : jGetStringD ms "http-auth" ≠ some auth
      · have he : (ensureDesyncKey auth (so, b) k).1 =
            jSetMember so k (.jobj (jSetMember ms "http-auth" (.jstr auth))) := by
          unfold ensureDesyncKey
          simp [hl, hauth]
        rw [he]
        unfold keyStable
        rw [jLookup_jSetMember_ne _ hne]
        exact hst
      · have he : (ensureDesyncKey auth (so, b) k).1 = so := by
          unfold ensureDesyncKey
          simp [hl, hauth]
        rw [he]
        exact hst
    | jnull =>
      have he : (ensureDesyncKey auth (so, b) k).1 = so := by
        unfold ensureDesyncKey
        simp [hl]
      rw [he]
      exact hst
    | jbool b0 =>
      have he : (ensureDesyncKey auth (so, b) k).1 = so := by
        unfold ensureDesyncKey
        simp [hl]
      rw [he]
      exact hst
    | jint n =>
      have he : (ensureDesyncKey auth (so, b) k).1 = so := by
        unfold ensureDesyncKey
        simp [hl]
      rw [he]
      exact hst
    | jstr s0 =>
      have he : (ensureDesyncKey auth (so, b) k).1 = so := by
        unfold ensureDesyncKey
        simp [hl]
      rw [he]
      exact hst
    | jarr xs =>
      have he : (ensureDesyncKey auth (so, b) k).1 = so := by
        unfold ensureDesyncKey
        simp [hl]
      rw [he]
      exact hst

theorem ensureDesyncKey_noop (auth : String) (so : List (String × Json))
    (b : Bool) (k : String) (hst : keyStable auth so k) :
    (ensureDesyncKey auth (so, b) k).1 = so := by
  unfold keyStable at hst
  unfold ensureDesyncKey
  cases hl : jLookup so k with
  | none => rw [hl] at hst; exact absurd hst (by simp)
  | some v =>
    cases v with
    | jobj ms =>
      rw [hl] at hst
      simp only [hst]
      simp
    | jnull => simp
    | jbool b0 => simp
    | jint n => simp
    | jstr s => simp
    | jarr xs => simp

theorem foldKeys_preserve (auth : String) (ks : List String) :
    ∀ (so : List (String × Json)) (b : Bool) (k' : String), k' ∉ ks →
    keyStable auth so k' →
    keyStable auth ((ks.foldl (ensureDesyncKey auth) (so, b)).1) k' := by
  induction ks with
  | nil => intro so b k' _ hst; exact hst
  | cons k ks' ih =>
    intro so b k' hnm hst
    have hkk : k ≠ k' := fun he => hnm (he ▸ List.mem_cons_self k ks')
    rcases he : ensureDesyncKey auth (so, b) k with ⟨so1, b1⟩
    rw [List.foldl_cons, he]
    have hst1 : keyStable auth so1 k' := by
      have := ensureDesyncKey_fst_preserve auth so b hkk hst
      rw [he] at this
      exact this
    exact ih so1 b1 k' (fun hm => hnm (List.mem_cons_of_mem k hm)) hst1

theorem foldKeys_establish (auth : String) (ks : List String) :
    ∀ (so : List (String × Json)) (b : Bool), ks.Pairwise (· ≠ ·) →
    ∀ k ∈ ks, keyStable auth ((ks.foldl (ensureDesyncKey auth) (so, b)).1) k := by
  induction ks with
  | nil => intro so b _ k hk; simp at hk
  | cons k0 ks' ih =>
    intro so b hpw k hk
    obtain ⟨hne, hpw'⟩ := List.pairwise_cons.mp hpw
    rcases he : ensureDesyncKey auth (so, b) k0 with ⟨so1, b1⟩
    rw [List.foldl_cons, he]
    rcases List.mem_cons.mp hk with h1 | h2
    · subst h1
      have hst1 : keyStable auth so1 k := by
        have := ensureDesyncKey_fst_stable auth so b k
        rw [he] at this
        exact this
      exact foldKeys_preserve auth ks' so1 b1 k
        (fun hm => (hne k hm) rfl) hst1
    · exact ih so1 b1 hpw' k h2

theorem foldKeys_noop (auth : String) (ks : List String) :
    ∀ (so : List (String × Json)) (b : Bool), (∀ k ∈ ks, keyStable auth so k) →
    ((ks.foldl (ensureDesyncKey auth) (so, b)).1) = so := by
  induction ks with
  | nil => intro so b _; rfl
  | cons k0 ks' ih =>
    intro so b hst
    rcases he : ensureDesyncKey auth (so, b) k0 with ⟨so1, b1⟩
    have hso1 : so1 = so := by
      have := ensureDesyncKey_noop auth so b k0 (hst k0 (List.mem_cons_self k0 ks'))
      rw [he] at this
      exact this
    subst hso1
    rw [List.foldl_cons, he]
    exact ih so1 b1 (fun k hk => hst k (List.mem_cons_of_mem k0 hk))

theorem stringMk_ne_of_len {a b : List Char} (h : a.length ≠ b.length) :
    String.mk a ≠ String.mk b := by
  intro he
  injection he with h2
  exact h (by rw [h2])

theorem desyncKeys_pairwise (url : String) : (desyncKeys url).Pairwise (· ≠ ·) := by
  unfold desyncKeys
  refine List.Pairwise.cons ?_ (List.Pairwise.cons ?_ ?_)
  · intro b hb
    rcases List.mem_cons.mp hb with h1 | h1
    · subst h1
      apply stringMk_ne_of_len
      simp only [List.length_append, List.length_cons, List.length_nil]
      omega
    · rw [List.mem_singleton] at h1
      subst h1
      apply stringMk_ne_of_len
      simp only [List.length_append, List.length_cons, List.length_nil]
      omega
  · intro b hb
    rw [List.mem_singleton] at hb
    subst hb
    apply stringMk_ne_of_len
    simp only [List.length_append, List.length_cons, List.length_nil]
    omega
  · exact List.pairwise_singleton _ _

/-- Idempotence of the desync-config updater (unconditional): a second
application to its own output is a no-op on the config content. -/
theorem desync_idempotent (root : Json) (url auth : String) :
    (_au_ensure_url_in_desync_conf root url auth).bind
      (fun y => _au_ensure_url_in_desync_conf y url auth) =
    _au_ensure_url_in_desync_conf root url auth := by
  cases root with
  | jobj ms =>
    cases hso : jLookup ms "store-options" with
    | none =>
      rcases hr : (desyncKeys url).foldl (ensureDesyncKey auth) ([], false)
        with ⟨so1, b1⟩
      have hfr : _au_ensure_url_in_desync_conf (.jobj ms) url auth =
          some (.jobj (jSetMember ms "store-options" (.jobj so1))) := by
        simp only [_au_ensure_url_in_desync_conf, hso, hr]
      rw [hfr, Option.some_bind]
      have hlk : jLookup (jSetMember ms "store-options" (.jobj so1))
          "store-options" = some (.jobj so1) := jLookup_jSetMember_self _ _ _
      have hstable : ∀ k ∈ desyncKeys url, keyStable auth so1 k := by
        intro k hk
        have := foldKeys_establish auth (desyncKeys url) [] false
          (desyncKeys_pairwise url) k hk
        rw [hr] at this
        exact this
      rcases hr2 : (desyncKeys url).foldl (ensureDesyncKey auth) (so1, false)
        with ⟨so2, b2⟩
      have hso2 : so2 = so1 := by
        have := foldKeys_noop auth (desyncKeys url) so1 false hstable
        rw [hr2] at this
        exact this
      subst hso2
      simp only [_au_ensure_url_in_desync_conf, hlk, hr2]
      by_cases hb2 : b2 = true
      · rw [if_pos hb2, jSetMember_jSetMember_self]
      · rw [if_neg hb2]
    | some v =>
      cases v with
      | jobj so =>
        rcases hr : (desyncKeys url).foldl (ensureDesyncKey auth) (so, false)
          with ⟨so1, b1⟩
        by_cases hb1 : b1 = true
        · have hfr : _au_ensure_url_in_desync_conf (.jobj ms) url auth =
              some (.jobj (jSetMember ms "store-options" (.jobj so1))) := by
            simp only [_au_ensure_url_in_desync_conf, hso, hr]
            rw [if_pos hb1]
          rw [hfr, Option.some_bind]
          have hlk : jLookup (jSetMember ms "store-options" (.jobj so1))
              "store-options" = some (.jobj so1) := jLookup_jSetMember_self _ _ _
          have hstable : ∀ k ∈ desyncKeys url, keyStable auth so1 k := by
            intro k hk
            have := foldKeys_establish auth (desyncKeys url) so false
              (desyncKeys_pairwise url) k hk
            rw [hr] at this
            exact this
          rcases hr2 : (desyncKeys url).foldl (ensureDesyncKey auth) (so1, false)
            with ⟨so2, b2⟩
          have hso2 : so2 = so1 := by
            have := foldKeys_noop auth (desyncKeys url) so1 false hstable
            rw [hr2] at this
            exact this
          subst hso2
          simp only [_au_ensure_url_in_desync_conf, hlk, hr2]
          by_cases hb2 : b2 = true
          · rw [if_pos hb2, jSetMember_jSetMember_self]
          · rw [if_neg hb2]
        · have hfr : _au_ensure_url_in_desync_conf (.jobj ms) url auth =
              some (.jobj ms) := by
            simp only [_au_ensure_url_in_desync_conf, hso, hr]
            rw [if_neg hb1]
          rw [hfr, Option.some_bind, hfr]
      | jnull => simp [_au_ensure_url_in_desync_conf, hso]
      | jbool b0 => simp [_au_ensure_url_in_desync_conf, hso]
      | jint n => simp [_au_ensure_url_in_desync_conf, hso]
      | jstr s => simp [_au_ensure_url_in_desync_conf, hso]
      | jarr xs => simp [_au_ensure_url_in_desync_conf, hso]
  | jnull => rfl
  | jbool b0 => rfl
  | jint n => rfl
  | jstr s => rfl
  | jarr xs => rfl

/-! ### Sortedness of the appended netrc hosts -/

theorem charToNat_inj {a b : Char} (h : a.toNat = b.toNat) : a = b :=
  Char.ext (UInt32.ext h)

theorem listLe_total (a : List Char) : ∀ b : List Char,
    listLe a b = true ∨ listLe b a = true := by
  induction a with
  | nil => intro b; left; rfl
  | cons x xs ih =>
    intro b
    cases b with
    | nil => right; rfl
    | cons y ys =>
      by_cases hxy : x = y
      · subst hxy
        unfold listLe
        rw [if_pos rfl, if_pos rfl]
        exact ih ys
      · unfold listLe
        rw [if_neg hxy, if_neg (Ne.symm hxy)]
        rcases Nat.lt_trichotomy x.toNat y.toNat with h | h | h
        · left; simp [h]
        · exact absurd (charToNat_inj h) hxy
        · right; simp [h]

theorem listLe_of_not_le {s t : List Char} (h : ¬ listLe s t = true) :
    listLe t s = true := by
  rcases listLe_total s t with h1 | h1
  · exact absurd h1 h
  · exact h1

theorem insertSorted_chain (s : List Char) (l : List (List Char))
    (h : List.Chain' (fun a b => listLe a b = true) l) :
    List.Chain' (fun a b => listLe a b = true) (insertSorted s l) := by
  induction l with
  | nil => simp [insertSorted]
  | cons t ts ih =>
    unfold insertSorted
    by_cases hle : listLe s t = true
    · rw [if_pos hle]
      exact List.chain'_cons.mpr ⟨hle, h⟩
    · rw [if_neg hle]
      have hts : List.Chain' (fun a b => listLe a b = true) ts := h.tail
      have hins := ih hts
      cases hx : insertSorted s ts with
      | nil => simp
      | cons z zs =>
        rw [hx] at hins
        have hz : listLe t z = true := by
          cases ts with
          | nil =>
            have : ([s] : List (List Char)) = z :: zs := by
              rw [← hx]; rfl
            injection this with h1 _
            subst h1
            exact listLe_of_not_le hle
          | cons t2 ts2 =>
            by_cases h2 : listLe s t2 = true
            · rw [insertSorted, if_pos h2] at hx
              injection hx with h1 _
              subst h1
              exact listLe_of_not_le hle
            · rw [insertSorted, if_neg h2] at hx
              injection hx with h1 _
              subst h1
              exact (List.chain'_cons.mp h).1
        exact List.chain'_cons.mpr ⟨hz, hins⟩

theorem sortHosts_chain (l : List (List Char)) :
    List.Chain' (fun a b => listLe a b = true) (sortHosts l) := by
  induction l with
  | nil => simp [sortHosts]
  | cons x xs ih => exact insertSorted_chain x (sortHosts xs) ih

/-! ### The combined C8 statement -/

/-- C8 counterexample: with a password containing a newline, the netrc
updater is *not* idempotent — the first application writes
`machine example.com login u password p\nmachine h x\n`, and re-reading that
file splits the injected text into a separate line, so the second
application rewrites the entry and appends an extra `machine h x` line. -/
theorem credential_updaters_idempotent_counterexample :
    _au_ensure_urls_in_netrc
        (_au_ensure_urls_in_netrc "" ["https://example.com"] "u"
          "p\nmachine h x")
        ["https://example.com"] "u" "p\nmachine h x" ≠
      _au_ensure_urls_in_netrc "" ["https://example.com"] "u"
        "p\nmachine h x" := by
  decide

/-- C8 (amended): the netrc updater is idempotent provided every URL's host
part is free of spaces and newlines and the credentials are free of
newlines; the desync-config updater is idempotent unconditionally; when the
input already has the target state (no leftover hosts, nothing rewritten)
the netrc updater returns its input unchanged; and new netrc hosts are
emitted in `strcmp`-sorted order. -/
theorem credential_updaters_idempotent (x : String) (urls : List String)
    (username password : String) (root : Json) (url auth : String)
    (hhosts : ∀ u ∈ urls, (' ' : Char) ∉ (_au_get_host_from_url u).data ∧
      ('\n' : Char) ∉ (_au_get_host_from_url u).data)
    (huser : ('\n' : Char) ∉ username.data)
    (hpass : ('\n' : Char) ∉ password.data) :
    _au_ensure_urls_in_netrc (_au_ensure_urls_in_netrc x urls username password)
        urls username password =
      _au_ensure_urls_in_netrc x urls username password ∧
    ((_au_ensure_url_in_desync_conf root url auth).bind
        (fun y => _au_ensure_url_in_desync_conf y url auth)) =
      _au_ensure_url_in_desync_conf root url auth ∧
    ((procLines (netrcLogin username password) (netrcHosts urls)
        (linesOf x.data)).2 = ([], false) →
      _au_ensure_urls_in_netrc x urls username password = x) ∧
    (∀ l : List (List Char),
      List.Chain' (fun a b => listLe a b = true) (sortHosts l) ∧
      (sortHosts l).Perm l) := by
  refine ⟨netrc_idempotent x urls username password hhosts huser hpass,
    desync_idempotent root url auth, ?_, fun l => ⟨sortHosts_chain l, sortHosts_perm l⟩⟩
  intro hdone
  rcases hproc : procLines (netrcLogin username password) (netrcHosts urls)
      (linesOf x.data) with ⟨o, rest⟩
  have h1 : rest = ([], false) := by
    have h2 := congrArg Prod.snd hproc
    simp only at h2
    rw [← h2]
    exact hdone
  subst h1
  simp [_au_ensure_urls_in_netrc, hproc, sortHosts]

/-- Witness for C8 (amended) at concrete inputs: one URL, newline-free
credentials, and the `{ }` desync skeleton. -/
theorem credential_updaters_idempotent_witness :
    _au_ensure_urls_in_netrc
        (_au_ensure_urls_in_netrc "" ["https://example.com"] "u" "p")
        ["https://example.com"] "u" "p" =
      _au_ensure_urls_in_netrc "" ["https://example.com"] "u" "p" ∧
    ((_au_ensure_url_in_desync_conf (Json.jobj []) "https://img.example"
        "Basic x").bind
      (fun y => _au_ensure_url_in_desync_conf y "https://img.example"
        "Basic x")) =
      _au_ensure_url_in_desync_conf (Json.jobj []) "https://img.example"
        "Basic x" :=
  ⟨(credential_updaters_idempotent "" ["https://example.com"] "u" "p"
      (Json.jobj []) "https://img.example" "Basic x"
      (by decide) (by decide) (by decide)).1,
   (credential_updaters_idempotent "" ["https://example.com"] "u" "p"
      (Json.jobj []) "https://img.example" "Basic x"
      (by decide) (by decide) (by decide)).2.1⟩

end Atomupd
